import Mathlib

/-!
Tic-tac-toe (`src/minimax.cpp`).

A shallow embedding of the board (`Board`), the outcome tests (`isFull`,
`checkWin`, `isEmptyCell`), the move operation (`makeMove`), the search of
`ComputerPlayer` (`makeMinimaxMove`, `minimax`), the random and the human player
(`makeRandomMove`, `humanMakeMove`) and the turn loop of `Game::run`, followed by the
properties established about them.

Conventions of the embedding:

* `std::array<char, 9>` is a function `Fin 9 → Char`; the blank `' '` is the empty cell.
* `int` positions, depths and scores are `Int`.  Every score the search handles is
  between `-1000` and `1000`, far from the limits of a 32-bit `int`.
* A member function that mutates the board returns the new board.
* The symbol of a player is a `Mark`: `Game::setupPlayers` constructs players with
  `'X'` and `'O'` only.
* The values returned by `rand()` and the pairs read from the terminal are explicit
  lists; a loop that has used them up without returning yields `none`.
-/

namespace TicTacToe

/-! ## Board -/

/-- The member `cells` of `Board`: nine characters, indexed `0..8` row by row. -/
abbrev Board := Fin 9 → Char

/-- The constructor `Board()`: nine blanks. -/
def emptyBoard : Board := fun _ => ' '

/-- A board written out as a list of cells (cells past the end of the list are blank). -/
def boardOf (cs : List Char) : Board := fun i => cs.getD i.val ' '

/-- The two player symbols that `Game::setupPlayers` hands out. -/
inductive Mark where
  | X
  | O
  deriving DecidableEq, Repr

/-- The character a mark is stored as. -/
def Mark.toChar : Mark → Char
  | Mark.X => 'X'
  | Mark.O => 'O'

/-- The other mark. -/
def Mark.other : Mark → Mark
  | Mark.X => Mark.O
  | Mark.O => Mark.X

/-- `Board::isEmptyCell`: `position >= 0 && position < 9 && cells[position] == ' '`.
The cell is read only when the range test has passed. -/
def isEmptyCell (b : Board) (position : Int) : Bool :=
  if h : 0 ≤ position ∧ position < 9 then b ⟨position.toNat, by omega⟩ == ' ' else false

/-- `Board::makeMove`: the returned flag and the board after the call. -/
def makeMove (b : Board) (position : Int) (playerSymbol : Char) : Bool × Board :=
  if h : position < 0 ∨ position ≥ 9 then (false, b)
  else
    let i : Fin 9 := ⟨position.toNat, by omega⟩
    if b i != ' ' then (false, b)
    else (true, Function.update b i playerSymbol)

/-- `Board::isFull`: the loop returns `false` at the first blank cell. -/
def isFull (b : Board) : Bool :=
  !(List.finRange 9).any (fun i => b i == ' ')

/-- `Board::checkWin`: the row loop (`i = 0, 3, 6`), the column loop (`i = 0, 1, 2`)
and the two diagonals. -/
def checkWin (b : Board) (playerSymbol : Char) : Bool :=
  (List.finRange 3).any (fun r =>
      b ⟨3 * r.val, by omega⟩ == playerSymbol && b ⟨3 * r.val + 1, by omega⟩ == playerSymbol
        && b ⟨3 * r.val + 2, by omega⟩ == playerSymbol)
  || (List.finRange 3).any (fun c =>
      b ⟨c.val, by omega⟩ == playerSymbol && b ⟨c.val + 3, by omega⟩ == playerSymbol
        && b ⟨c.val + 6, by omega⟩ == playerSymbol)
  || (b 0 == playerSymbol && b 4 == playerSymbol && b 8 == playerSymbol
      || b 2 == playerSymbol && b 4 == playerSymbol && b 6 == playerSymbol)

/-- The eight lines of the grid, as triples of cell indices. -/
def winLines : List (Fin 9 × Fin 9 × Fin 9) :=
  [(0, 1, 2), (3, 4, 5), (6, 7, 8), (0, 3, 6), (1, 4, 7), (2, 5, 8), (0, 4, 8), (2, 4, 6)]

/-- Number of blank cells. -/
def emptyCount (b : Board) : Nat :=
  (Finset.univ.filter (fun i : Fin 9 => b i = ' ')).card

/-- Number of cells that are not blank. -/
def nonEmptyCount (b : Board) : Nat :=
  (Finset.univ.filter (fun i : Fin 9 => b i ≠ ' ')).card

/-! ## Search of `ComputerPlayer` -/

/-- The local `opponent` of `minimax`: `(symbol == 'X') ? 'O' : 'X'`. -/
def opponentOf (symbol : Char) : Char := if symbol == 'X' then 'O' else 'X'

/-- The symbol `minimax` places in its loop: `isMaximizing ? symbol : opponent`. -/
def mover (symbol : Mark) (isMaximizing : Bool) : Char :=
  if isMaximizing then symbol.toChar else opponentOf symbol.toChar

theorem mover_ne_blank (symbol : Mark) (isMaximizing : Bool) :
    mover symbol isMaximizing ≠ ' ' := by
  cases symbol <;> cases isMaximizing <;> decide

theorem isEmptyCell_natCast (b : Board) (i : Nat) :
    isEmptyCell b (i : Int) = true ↔ ∃ h : i < 9, b ⟨i, h⟩ = ' ' := by
  unfold isEmptyCell
  constructor
  · intro h
    split at h
    · refine ⟨by omega, ?_⟩
      simpa using h
    · simp at h
  · rintro ⟨hi, hb⟩
    have hr : (0 : Int) ≤ (i : Int) ∧ (i : Int) < 9 := by omega
    simp [hr, hb]

theorem makeMove_natCast (b : Board) (i : Nat) (s : Char) (hi : i < 9)
    (hb : b ⟨i, hi⟩ = ' ') :
    makeMove b (i : Int) s = (true, Function.update b ⟨i, hi⟩ s) := by
  have hr : ¬ ((i : Int) < 0 ∨ (i : Int) ≥ 9) := by omega
  unfold makeMove
  rw [dif_neg hr]
  simp [hb]

theorem emptyCount_update_lt (b : Board) (i : Fin 9) (s : Char) (hs : s ≠ ' ')
    (hb : b i = ' ') : emptyCount (Function.update b i s) < emptyCount b := by
  unfold emptyCount
  apply Finset.card_lt_card
  rw [Finset.ssubset_iff_of_subset]
  · exact ⟨i, by simp [hb], by simp [hs]⟩
  · intro j hj
    simp only [Finset.mem_filter, Finset.mem_univ, true_and] at hj ⊢
    by_cases hji : j = i
    · subst hji; simp [hs] at hj
    · simpa [Function.update_noteq hji] using hj

/-- Filling a blank cell with a symbol other than the blank lowers the number of blanks:
the measure on which the recursion of `minimax` is well founded. -/
theorem emptyCount_makeMove_lt (b : Board) (i : Nat) (s : Char) (hs : s ≠ ' ')
    (h : isEmptyCell b (i : Int) = true) :
    emptyCount (makeMove b (i : Int) s).2 < emptyCount b := by
  obtain ⟨hi, hb⟩ := (isEmptyCell_natCast b i).1 h
  rw [makeMove_natCast b i s hi hb]
  exact emptyCount_update_lt b _ s hs hb

mutual
/-- `ComputerPlayer::minimax`.  The parameter `board` is the function's own copy
(passed by value); the loop below keeps working on that one copy. -/
def minimax (symbol : Mark) (board : Board) (depth : Int) (isMaximizing : Bool) : Int :=
  if checkWin board symbol.toChar then 10 - depth
  else if checkWin board (opponentOf symbol.toChar) then depth - 10
  else if isFull board then 0
  else minimaxLoop symbol depth isMaximizing 0 board (if isMaximizing then -1000 else 1000)
termination_by (emptyCount board, 10)
/-- The `for (int i = 0; i < 9; i++)` loop of `minimax` from index `i` on, with the
current contents of the local `board` and of `bestScore`.  `board.makeMove` writes
into the local board and nothing takes the mark back, so the board handed to the
next iteration is `board1`. -/
def minimaxLoop (symbol : Mark) (depth : Int) (isMaximizing : Bool)
    (i : Nat) (board : Board) (bestScore : Int) : Int :=
  if i < 9 then
    if h : isEmptyCell board (i : Int) = true then
      let board1 := (makeMove board (i : Int) (mover symbol isMaximizing)).2
      let score := minimax symbol board1 (depth + 1) (!isMaximizing)
      minimaxLoop symbol depth isMaximizing (i + 1) board1
        (if isMaximizing then max score bestScore else min score bestScore)
    else minimaxLoop symbol depth isMaximizing (i + 1) board bestScore
  else bestScore
termination_by (emptyCount board, 9 - i)
decreasing_by
  all_goals simp_wf
  · exact Prod.Lex.left _ _ (emptyCount_makeMove_lt _ _ _ (mover_ne_blank _ _) h)
  · exact Prod.Lex.left _ _ (emptyCount_makeMove_lt _ _ _ (mover_ne_blank _ _) h)
  · exact Prod.Lex.right _ (by omega)
end

/-- The score `makeMinimaxMove` computes for the candidate cell `i`: a copy of the
board (`tempBoard`) receives the symbol at `i` and is scored by `minimax` at depth 0
on the minimizing ply. -/
def candidateScore (symbol : Mark) (board : Board) (i : Nat) : Int :=
  minimax symbol (makeMove board (i : Int) symbol.toChar).2 0 false

/-- One iteration of the loop of `makeMinimaxMove` on the pair `(bestScore, bestMove)`. -/
def searchStep (symbol : Mark) (board : Board) : Int × Int → Nat → Int × Int :=
  fun best i =>
    if isEmptyCell board (i : Int) then
      if candidateScore symbol board i > best.1 then (candidateScore symbol board i, (i : Int))
      else best
    else best

/-- The loop of `makeMinimaxMove`: the final `(bestScore, bestMove)`, starting from
`(-1000, -1)` and visiting `i = 0, ..., 8`. -/
def minimaxSearch (symbol : Mark) (board : Board) : Int × Int :=
  (List.range 9).foldl (searchStep symbol board) (-1000, -1)

/-- `ComputerPlayer::makeMinimaxMove`: the board after the call. -/
def makeMinimaxMove (symbol : Mark) (board : Board) : Board :=
  if (minimaxSearch symbol board).2 ≠ -1 then
    (makeMove board (minimaxSearch symbol board).2 symbol.toChar).2
  else board

/-! ## Evaluation by structural recursion

`minimax` recurses on the number of blank cells, which the kernel does not unfold on
closed boards.  `minimaxFuel` is the same function written by recursion on a counter;
`minimax_eq_minimaxFuel` below shows that with counter 10 it is `minimax` itself. -/

/-- The loop of `minimax` with `k` iterations left, the recursive call being `call`. -/
def minimaxLoopFuel (call : Board → Int → Bool → Int) (symbol : Mark) (depth : Int)
    (isMaximizing : Bool) : Nat → Nat → Board → Int → Int
  | 0, _, _, bestScore => bestScore
  | k + 1, i, board, bestScore =>
    if isEmptyCell board (i : Int) = true then
      let board1 := (makeMove board (i : Int) (mover symbol isMaximizing)).2
      let score := call board1 (depth + 1) (!isMaximizing)
      minimaxLoopFuel call symbol depth isMaximizing k (i + 1) board1
        (if isMaximizing then max score bestScore else min score bestScore)
    else minimaxLoopFuel call symbol depth isMaximizing k (i + 1) board bestScore

/-- The function `minimax` by recursion on a counter of nested calls. -/
def minimaxFuel : Nat → Mark → Board → Int → Bool → Int
  | 0, _, _, _, _ => 0
  | fuel + 1, symbol, board, depth, isMaximizing =>
    if checkWin board symbol.toChar then 10 - depth
    else if checkWin board (opponentOf symbol.toChar) then depth - 10
    else if isFull board then 0
    else minimaxLoopFuel (minimaxFuel fuel symbol) symbol depth isMaximizing 9 0 board
      (if isMaximizing then -1000 else 1000)

/-! ## Reference notions the program is compared with -/

/-- The reference minimax of the design: every continuation is explored on its own
copy of the board, so each candidate `i` is scored on `board` with only cell `i`
additionally filled.  `none` means the counter of nested calls ran out. -/
def minimaxRef : Nat → Mark → Board → Int → Bool → Option Int
  | 0, _, _, _, _ => none
  | fuel + 1, symbol, board, depth, isMaximizing =>
    if checkWin board symbol.toChar then some (10 - depth)
    else if checkWin board (opponentOf symbol.toChar) then some (depth - 10)
    else if isFull board then some 0
    else
      (List.range 9).foldlM (fun bestScore i =>
        if isEmptyCell board (i : Int) then
          (minimaxRef fuel symbol (makeMove board (i : Int) (mover symbol isMaximizing)).2
              (depth + 1) (!isMaximizing)).map
            (fun score => if isMaximizing then max score bestScore else min score bestScore)
        else some bestScore)
        (if isMaximizing then -1000 else 1000)

/-- Exhaustive play: `forcedWin M n toMove b` holds when, on board `b` with `toMove`
to play, `M` completes a line within `n` plies whatever the other side plays.
Play stops at a complete line or a full board.  No play lasts more than 9 plies:
by `forcedWin_stable` and `forcedWin_nine` below, `forcedWin M 9` is the forced win
of exhaustive play without a bound. -/
def forcedWin (M : Mark) : Nat → Mark → Board → Bool
  | 0, _, b => checkWin b M.toChar
  | n + 1, toMove, b =>
    if checkWin b M.toChar then true
    else if checkWin b M.other.toChar then false
    else if isFull b then false
    else if toMove = M then
      (List.range 9).any (fun i =>
        isEmptyCell b (i : Int) && forcedWin M n toMove.other (makeMove b (i : Int) toMove.toChar).2)
    else
      (List.range 9).all (fun i =>
        !isEmptyCell b (i : Int) || forcedWin M n toMove.other (makeMove b (i : Int) toMove.toChar).2)

/-! ## Packed boards

Closed instances of the search are evaluated on boards packed into two bit masks;
`minimaxSearch_unpack` and `forcedWin_unpack` below carry the results back to
`minimaxSearch` and `forcedWin`. -/

/-- A board over blank, X and O packed into two 9-bit masks: bit `i` of the first
component says that cell `i` holds X, bit `i` of the second that it holds O. -/
abbrev Packed := Nat × Nat

/-- The board a pair of masks stands for. -/
def unpack (c : Packed) : Board :=
  fun i => if c.1.testBit i.val then 'X' else if c.2.testBit i.val then 'O' else ' '

/-- Cell `i` of the packed board holds the mark `m`. -/
def packedIs (m : Mark) (c : Packed) (i : Nat) : Bool :=
  match m with
  | Mark.X => c.1.testBit i
  | Mark.O => !c.1.testBit i && c.2.testBit i

/-- The test `isEmptyCell` on a packed board. -/
def packedEmpty (c : Packed) (i : Nat) : Bool :=
  decide (i < 9) && !c.1.testBit i && !c.2.testBit i

/-- The packed board with the mark `m` written into the blank cell `i`. -/
def packedSet (m : Mark) (c : Packed) (i : Nat) : Packed :=
  match m with
  | Mark.X => (c.1 ||| 2 ^ i, c.2)
  | Mark.O => (c.1, c.2 ||| 2 ^ i)

/-- The test `checkWin` on a packed board. -/
def packedWin (m : Mark) (c : Packed) : Bool :=
  packedIs m c 0 && packedIs m c 1 && packedIs m c 2
  || packedIs m c 3 && packedIs m c 4 && packedIs m c 5
  || packedIs m c 6 && packedIs m c 7 && packedIs m c 8
  || packedIs m c 0 && packedIs m c 3 && packedIs m c 6
  || packedIs m c 1 && packedIs m c 4 && packedIs m c 7
  || packedIs m c 2 && packedIs m c 5 && packedIs m c 8
  || packedIs m c 0 && packedIs m c 4 && packedIs m c 8
  || packedIs m c 2 && packedIs m c 4 && packedIs m c 6

/-- The test `isFull` on a packed board. -/
def packedFull (c : Packed) : Bool :=
  (List.range 9).all (fun i => c.1.testBit i || c.2.testBit i)

/-- The mark `minimax` places in its loop. -/
def moverMark (symbol : Mark) (isMaximizing : Bool) : Mark :=
  if isMaximizing then symbol else symbol.other

/-- Hands the number `n` to `k` once it has been computed. -/
def withNat {α : Type} (n : Nat) (k : Nat → α) : α :=
  match n with
  | 0 => k 0
  | m + 1 => k (m + 1)

/-- Hands the integer `z` to `k` once it has been computed. -/
def withInt {α : Type} (z : Int) (k : Int → α) : α :=
  match z with
  | Int.ofNat n => withNat n (fun m => k (Int.ofNat m))
  | Int.negSucc n => withNat n (fun m => k (Int.negSucc m))

/-- Hands the flag `x` to `k` once it has been computed. -/
def withBool {α : Type} (x : Bool) (k : Bool → α) : α :=
  match x with
  | true => k true
  | false => k false

/-- Hands the mark `m` to `k` once it has been computed. -/
def withMark {α : Type} (m : Mark) (k : Mark → α) : α :=
  match m with
  | Mark.X => k Mark.X
  | Mark.O => k Mark.O

/-- Hands the packed board `c` to `k` once both masks have been computed. -/
def withPacked {α : Type} (c : Packed) (k : Packed → α) : α :=
  withNat c.1 (fun xs => withNat c.2 (fun os => k (xs, os)))

/-- The loop of `minimax` on a packed board. -/
def packedLoop (call : Packed → Int → Bool → Int) (symbol : Mark) (depth : Int)
    (isMaximizing : Bool) : Nat → Nat → Packed → Int → Int
  | 0, _, _, bestScore => bestScore
  | k + 1, i, c, bestScore =>
    if packedEmpty c i = true then
      withPacked (packedSet (moverMark symbol isMaximizing) c i) (fun c1 =>
      withInt (depth + 1) (fun depth1 =>
      withBool (!isMaximizing) (fun flag1 =>
      withInt (call c1 depth1 flag1) (fun score =>
      withInt (if isMaximizing then max score bestScore else min score bestScore)
        (fun bestScore1 =>
      packedLoop call symbol depth isMaximizing k (i + 1) c1 bestScore1)))))
    else packedLoop call symbol depth isMaximizing k (i + 1) c bestScore

/-- The function `minimax` on a packed board. -/
def packedMinimax : Nat → Mark → Packed → Int → Bool → Int
  | 0, _, _, _, _ => 0
  | fuel + 1, symbol, c, depth, isMaximizing =>
    if packedWin symbol c then 10 - depth
    else if packedWin symbol.other c then depth - 10
    else if packedFull c then 0
    else packedLoop (packedMinimax fuel symbol) symbol depth isMaximizing 9 0 c
      (if isMaximizing then -1000 else 1000)

/-- The loop of `makeMinimaxMove` on a packed board. -/
def packedSearch (symbol : Mark) (c : Packed) : Int × Int :=
  (List.range 9).foldl (fun best i =>
    if packedEmpty c i then
      withPacked (packedSet symbol c i) (fun c1 =>
      withInt (packedMinimax 10 symbol c1 0 false) (fun score =>
        if score > best.1 then (score, (i : Int)) else best))
    else best) (-1000, -1)

/-- The function `forcedWin` on a packed board. -/
def packedForcedWin (M : Mark) : Nat → Mark → Packed → Bool
  | 0, _, c => packedWin M c
  | n + 1, toMove, c =>
    if packedWin M c then true
    else if packedWin M.other c then false
    else if packedFull c then false
    else if toMove = M then
      (List.range 9).any (fun i =>
        packedEmpty c i && withPacked (packedSet toMove c i) (fun c1 =>
          withMark toMove.other (fun next => packedForcedWin M n next c1)))
    else
      (List.range 9).all (fun i =>
        !packedEmpty c i || withPacked (packedSet toMove c i) (fun c1 =>
          withMark toMove.other (fun next => packedForcedWin M n next c1)))

/-! ## Turn loop of `Game::run` -/

/-- The effect of one `Player::makeMove(board)` call, as a relation between the board
before and the board after. -/
abbrev Policy := Board → Board → Prop

/-- A player that places its symbol on some blank cell of its choice. -/
def legalMovePolicy (symbol : Mark) : Policy :=
  fun b b1 => ∃ i : Nat, isEmptyCell b (i : Int) = true ∧ b1 = (makeMove b (i : Int) symbol.toChar).2

/-- A `ComputerPlayer` in mode `MINIMAX`. -/
def minimaxPolicy (symbol : Mark) : Policy :=
  fun b b1 => b1 = makeMinimaxMove symbol b

/-- The condition of the `while` loop of `Game::run`. -/
def gameRunning (b : Board) : Bool :=
  !isFull b && !checkWin b 'X' && !checkWin b 'O'

/-- The states `(board, currentPlayer)` at the head of the `while` loop of `Game::run`:
the start state, and the state after each executed turn. -/
inductive GameReach (player1 player2 : Policy) : Board → Nat → Prop
  | start : GameReach player1 player2 emptyBoard 0
  | turn {b b1 : Board} {currentPlayer : Nat} :
      GameReach player1 player2 b currentPlayer →
      gameRunning b = true →
      (if currentPlayer = 0 then player1 else player2) b b1 →
      GameReach player1 player2 b1 (1 - currentPlayer)

/-- Boards reachable from the empty board by alternating legal moves, X first,
together with the side to move. -/
def Reachable (b : Board) (toMove : Mark) : Prop :=
  GameReach (legalMovePolicy Mark.X) (legalMovePolicy Mark.O) b
    (if toMove = Mark.X then 0 else 1)

/-! ## The other players and the calls of `minimax` -/

/-- `ComputerPlayer::makeRandomMove`.  `draws` lists the values that successive calls
of `rand()` return; each round of the `do ... while` loop takes two of them.  The
result is the board after the call together with the draws left over, or `none` when
the draws are used up before a round has hit a blank cell (the loop is still running). -/
def makeRandomMove (symbol : Mark) : List Nat → Board → Option (Board × List Nat)
  | r :: c :: rest, board =>
    let row : Int := (r : Int) % 3
    let col : Int := (c : Int) % 3
    let position : Int := row * 3 + col
    if isEmptyCell board position = false then makeRandomMove symbol rest board
    else some ((makeMove board position symbol.toChar).2, rest)
  | _, _ => none

/-- `HumanPlayer::makeMove`.  `inputs` lists the pairs `(row, col)` read from the
terminal, one pair per round of the `do ... while (true)` loop.  The result is the
board after the call together with the inputs left over, or `none` when the inputs are
used up before a round was accepted. -/
def humanMakeMove (symbol : Mark) : List (Int × Int) → Board → Option (Board × List (Int × Int))
  | (row, col) :: rest, board =>
    let position : Int := (row - 1) * 3 + (col - 1)
    if position < 0 ∨ position > 8 ∨ isEmptyCell board position = false then
      humanMakeMove symbol rest board
    else some ((makeMove board position symbol.toChar).2, rest)
  | [], _ => none

/-- The kinds of player `Game::setupPlayers` creates: a `HumanPlayer`, or a
`ComputerPlayer` in mode `RANDOM` or `MINIMAX`. -/
inductive PlayerKind where
  | human
  | random
  | minimax
  deriving DecidableEq, Repr

/-- The effect of `Player::makeMove` for a player of the given kind and symbol, for
any terminal inputs and any random draws. -/
def playerPolicy (kind : PlayerKind) (symbol : Mark) : Policy :=
  match kind with
  | PlayerKind.human => fun b b1 => ∃ inputs rest, humanMakeMove symbol inputs b = some (b1, rest)
  | PlayerKind.random => fun b b1 => ∃ draws rest, makeRandomMove symbol draws b = some (b1, rest)
  | PlayerKind.minimax => minimaxPolicy symbol

/-- Number of cells holding the character `c`. -/
def countOf (c : Char) (b : Board) : Nat :=
  (Finset.univ.filter (fun i : Fin 9 => b i = c)).card

/-- Every cell is blank, X or O: the boards the program builds. -/
def overMarks (b : Board) : Prop := ∀ i : Fin 9, b i = ' ' ∨ b i = 'X' ∨ b i = 'O'

/-- The arguments `(board, depth, isMaximizing)` of the recursive calls that the loop of
`minimax` makes with `k` iterations left, in the order it makes them. -/
def minimaxLoopCalls (symbol : Mark) (depth : Int) (isMaximizing : Bool) :
    Nat → Nat → Board → List (Board × Int × Bool)
  | 0, _, _ => []
  | k + 1, i, board =>
    if isEmptyCell board (i : Int) = true then
      let board1 := (makeMove board (i : Int) (mover symbol isMaximizing)).2
      (board1, depth + 1, !isMaximizing)
        :: minimaxLoopCalls symbol depth isMaximizing k (i + 1) board1
    else minimaxLoopCalls symbol depth isMaximizing k (i + 1) board

/-- The arguments of the recursive calls one call of `minimax` makes: none on a
terminal board, those of its loop otherwise. -/
def minimaxCalls (symbol : Mark) (board : Board) (depth : Int) (isMaximizing : Bool) :
    List (Board × Int × Bool) :=
  if checkWin board symbol.toChar then []
  else if checkWin board (opponentOf symbol.toChar) then []
  else if isFull board then []
  else minimaxLoopCalls symbol depth isMaximizing 9 0 board

/-- The board after X has opened in the corner cell 0: `X _ _ / _ _ _ / _ _ _`. -/
def cornerBoard : Board := boardOf ['X', ' ', ' ', ' ', ' ', ' ', ' ', ' ', ' ']

/-- A board with two blank cells: `_ _ O / O X X / X O X`. -/
def lateBoard : Board := boardOf [' ', ' ', 'O', 'O', 'X', 'X', 'X', 'O', 'X']

/-- The board of end-to-end scenario 2: `X X _ / O O _ / _ _ _`. -/
def blockBoard : Board := boardOf ['X', 'X', ' ', 'O', 'O', ' ', ' ', ' ', ' ']

/-- A board with X to move: `X O O / _ _ _ / _ X _`. -/
def raceBoard : Board := boardOf ['X', 'O', 'O', ' ', ' ', ' ', ' ', 'X', ' ']

/-! ## The evaluation function agrees with `minimax` -/

theorem minimaxLoopFuel_eq (call : Board → Int → Bool → Int) (symbol : Mark) (depth : Int)
    (isMaximizing : Bool) :
    ∀ (k i : Nat) (board : Board) (bestScore : Int), i + k = 9 →
      (∀ b, emptyCount b < emptyCount board →
        call b (depth + 1) (!isMaximizing) = minimax symbol b (depth + 1) (!isMaximizing)) →
      minimaxLoopFuel call symbol depth isMaximizing k i board bestScore
        = minimaxLoop symbol depth isMaximizing i board bestScore := by
  intro k
  induction k with
  | zero =>
    intro i board bestScore hi _
    rw [minimaxLoop]
    simp [minimaxLoopFuel, show ¬ i < 9 by omega]
  | succ k ih =>
    intro i board bestScore hi hcall
    rw [minimaxLoop, minimaxLoopFuel]
    have hlt : i < 9 := by omega
    simp only [hlt, if_true]
    by_cases he : isEmptyCell board (i : Int) = true
    · have hdec := emptyCount_makeMove_lt board i (mover symbol isMaximizing)
        (mover_ne_blank _ _) he
      simp only [he, if_true, dite_true]
      rw [hcall _ hdec]
      exact ih _ _ _ (by omega) (fun b hb => hcall b (lt_trans hb hdec))
    · simp only [he, if_false, dite_false]
      exact ih _ _ _ (by omega) hcall

theorem minimaxFuel_eq (symbol : Mark) :
    ∀ (fuel : Nat) (board : Board) (depth : Int) (isMaximizing : Bool),
      emptyCount board < fuel →
      minimaxFuel fuel symbol board depth isMaximizing
        = minimax symbol board depth isMaximizing := by
  intro fuel
  induction fuel with
  | zero => intro board depth isMaximizing h; omega
  | succ fuel ih =>
    intro board depth isMaximizing h
    rw [minimax, minimaxFuel]
    split
    · rfl
    · split
      · rfl
      · split
        · rfl
        · exact minimaxLoopFuel_eq _ _ _ _ 9 0 board _ (by omega)
            (fun b hb => ih b _ _ (by omega))

theorem emptyCount_le (b : Board) : emptyCount b ≤ 9 := by
  unfold emptyCount
  exact le_trans (Finset.card_filter_le _ _) (by simp)

/-- Ten nested calls are enough on every board: `minimax` is `minimaxFuel 10`. -/
theorem minimax_eq_minimaxFuel (symbol : Mark) (board : Board) (depth : Int)
    (isMaximizing : Bool) :
    minimax symbol board depth isMaximizing = minimaxFuel 10 symbol board depth isMaximizing :=
  (minimaxFuel_eq symbol 10 board depth isMaximizing
    (Nat.lt_succ_of_le (emptyCount_le board))).symm

/-! ## `Board::checkWin` -/

/-- C7: for every board and every symbol, `checkWin` is true exactly when one of the
eight fixed lines has all three of its cells equal to the symbol. -/
theorem checkWin_iff_line (b : Board) (playerSymbol : Char) :
    checkWin b playerSymbol = true ↔
      ∃ l ∈ winLines, b l.1 = playerSymbol ∧ b l.2.1 = playerSymbol ∧ b l.2.2 = playerSymbol := by
  simp only [checkWin, winLines, List.finRange, List.any_eq_true, List.mem_ofFn, Bool.or_eq_true,
    Bool.and_eq_true, beq_iff_eq, List.mem_cons, List.mem_singleton, exists_eq_or_imp,
    exists_eq_left, List.not_mem_nil, false_and, exists_false, or_false]
  constructor
  · rintro ((⟨r, ⟨r0, rfl⟩, h⟩ | ⟨c, ⟨c0, rfl⟩, ⟨h1, h2⟩, h3⟩) | h | h)
    · fin_cases r0 <;> simp_all
    · fin_cases c0 <;> simp_all
    · simp_all
    · simp_all
  · rintro (⟨h1, h2, h3⟩ | ⟨h1, h2, h3⟩ | ⟨h1, h2, h3⟩ | ⟨h1, h2, h3⟩ | ⟨h1, h2, h3⟩
      | ⟨h1, h2, h3⟩ | ⟨h1, h2, h3⟩ | ⟨h1, h2, h3⟩)
    · exact Or.inl (Or.inl ⟨0, ⟨0, rfl⟩, ⟨h1, h2⟩, h3⟩)
    · exact Or.inl (Or.inl ⟨1, ⟨1, rfl⟩, ⟨h1, h2⟩, h3⟩)
    · exact Or.inl (Or.inl ⟨2, ⟨2, rfl⟩, ⟨h1, h2⟩, h3⟩)
    · exact Or.inl (Or.inr ⟨0, ⟨0, rfl⟩, ⟨h1, h2⟩, h3⟩)
    · exact Or.inl (Or.inr ⟨1, ⟨1, rfl⟩, ⟨h1, h2⟩, h3⟩)
    · exact Or.inl (Or.inr ⟨2, ⟨2, rfl⟩, ⟨h1, h2⟩, h3⟩)
    · exact Or.inr (Or.inl ⟨⟨h1, h2⟩, h3⟩)
    · exact Or.inr (Or.inr ⟨⟨h1, h2⟩, h3⟩)

/-! ## `Board::isEmptyCell` and `Board::makeMove` -/

theorem isEmptyCell_iff (b : Board) (position : Int) :
    isEmptyCell b position = true ↔ ∃ i : Fin 9, (i.val : Int) = position ∧ b i = ' ' := by
  unfold isEmptyCell
  constructor
  · intro h
    split at h
    · rename_i hr
      exact ⟨⟨position.toNat, by omega⟩, by simp only []; omega, by simpa using h⟩
    · simp at h
  · rintro ⟨i, rfl, hb⟩
    have hr : (0 : Int) ≤ (i.val : Int) ∧ (i.val : Int) < 9 := by omega
    simp [hr, hb]

theorem makeMove_of_empty (b : Board) (i : Fin 9) (playerSymbol : Char) (hb : b i = ' ') :
    makeMove b (i.val : Int) playerSymbol = (true, Function.update b i playerSymbol) :=
  makeMove_natCast b i.val playerSymbol i.isLt hb

theorem makeMove_of_not_empty (b : Board) (position : Int) (playerSymbol : Char)
    (h : isEmptyCell b position = false) : makeMove b position playerSymbol = (false, b) := by
  unfold makeMove
  split
  · rfl
  · rename_i hr
    have hr2 : 0 ≤ position ∧ position < 9 := by omega
    simp only [isEmptyCell, hr2, and_self, dite_true] at h
    simp only [bne, h, Bool.not_false, if_true]

theorem nonEmptyCount_update (b : Board) (i : Fin 9) (s : Char) (hs : s ≠ ' ')
    (hb : b i = ' ') : nonEmptyCount (Function.update b i s) = nonEmptyCount b + 1 := by
  unfold nonEmptyCount
  have hset : Finset.univ.filter (fun j : Fin 9 => Function.update b i s j ≠ ' ')
      = insert i (Finset.univ.filter (fun j : Fin 9 => b j ≠ ' ')) := by
    ext j
    by_cases hji : j = i
    · subst hji; simp [hs]
    · simp [Function.update_noteq hji, hji]
  rw [hset, Finset.card_insert_of_not_mem (by simp [hb])]

theorem Mark.toChar_ne_blank (m : Mark) : m.toChar ≠ ' ' := by
  cases m <;> decide

/-- C8: `makeMove` with a mark returns true exactly when the position is in `0..8` and
its cell is blank; when it returns true the new board holds the mark at the position,
every other cell is as before, and there is exactly one more non-blank cell. -/
theorem makeMove_succeeds_iff (b : Board) (position : Int) (m : Mark) :
    ((makeMove b position m.toChar).1 = true ↔
        0 ≤ position ∧ position ≤ 8 ∧ ∃ i : Fin 9, (i.val : Int) = position ∧ b i = ' ')
    ∧ ((makeMove b position m.toChar).1 = true →
        ∃ i : Fin 9, (i.val : Int) = position
          ∧ (makeMove b position m.toChar).2 i = m.toChar
          ∧ (∀ j : Fin 9, j ≠ i → (makeMove b position m.toChar).2 j = b j)
          ∧ nonEmptyCount (makeMove b position m.toChar).2 = nonEmptyCount b + 1) := by
  have key : (makeMove b position m.toChar).1 = true →
      ∃ i : Fin 9, (i.val : Int) = position ∧ b i = ' '
        ∧ makeMove b position m.toChar = (true, Function.update b i m.toChar) := by
    intro h
    cases he : isEmptyCell b position with
    | false => rw [makeMove_of_not_empty b position _ he] at h; simp at h
    | true =>
      obtain ⟨i, hi, hb⟩ := (isEmptyCell_iff b position).1 he
      exact ⟨i, hi, hb, by rw [← hi]; exact makeMove_of_empty b i _ hb⟩
  refine ⟨⟨fun h => ?_, ?_⟩, fun h => ?_⟩
  · obtain ⟨i, hi, hb, -⟩ := key h
    exact ⟨by omega, by omega, i, hi, hb⟩
  · rintro ⟨-, -, i, rfl, hb⟩
    rw [makeMove_of_empty b i _ hb]
  · obtain ⟨i, hi, hb, hm⟩ := key h
    refine ⟨i, hi, ?_, ?_, ?_⟩
    · rw [hm]; simp
    · intro j hj; rw [hm]; simp [Function.update_noteq hj]
    · rw [hm]; exact nonEmptyCount_update b i _ m.toChar_ne_blank hb

/-- C9: an out-of-range position or an occupied cell makes `makeMove` return false
with the board as it was; and once `makeMove` has placed a mark at a position, a second
`makeMove` at that position, with any symbol, returns false and changes nothing. -/
theorem makeMove_rejected_unchanged (b : Board) (position : Int) (playerSymbol : Char)
    (m : Mark) :
    ((position < 0 ∨ position ≥ 9 ∨ ∃ i : Fin 9, (i.val : Int) = position ∧ b i ≠ ' ') →
        makeMove b position playerSymbol = (false, b))
    ∧ ((makeMove b position m.toChar).1 = true →
        makeMove (makeMove b position m.toChar).2 position playerSymbol
          = (false, (makeMove b position m.toChar).2)) := by
  have hrej : ∀ (b1 : Board),
      (position < 0 ∨ position ≥ 9 ∨ ∃ i : Fin 9, (i.val : Int) = position ∧ b1 i ≠ ' ') →
      makeMove b1 position playerSymbol = (false, b1) := by
    intro b1 h
    apply makeMove_of_not_empty
    cases he : isEmptyCell b1 position with
    | false => rfl
    | true =>
      obtain ⟨i, hi, hb⟩ := (isEmptyCell_iff b1 position).1 he
      rcases h with h | h | ⟨j, hj, hne⟩
      · omega
      · omega
      · have : j = i := Fin.ext (by omega)
        subst this
        exact absurd hb hne
  refine ⟨hrej b, fun h => hrej _ (Or.inr (Or.inr ?_))⟩
  obtain ⟨i, hi, hcell, -⟩ := (makeMove_succeeds_iff b position m).2 h
  exact ⟨i, hi, by rw [hcell]; exact m.toChar_ne_blank⟩

/-- At index 3 of the empty board: the first `makeMove` succeeds, the second one is
rejected and leaves the board as the first one made it. -/
theorem makeMove_rejected_unchanged_witness :
    (makeMove emptyBoard 3 'X').1 = true
    ∧ makeMove (makeMove emptyBoard 3 'X').2 3 'O' = (false, (makeMove emptyBoard 3 'X').2) :=
  ⟨by decide, (makeMove_rejected_unchanged emptyBoard 3 'O' Mark.X).2 (by decide)⟩

/-! ## Range of the scores -/

theorem isFull_eq_false_iff (b : Board) : isFull b = false ↔ ∃ j : Fin 9, b j = ' ' := by
  simp [isFull, List.any_eq_true]

theorem isFull_iff (b : Board) : isFull b = true ↔ ∀ j : Fin 9, b j ≠ ' ' := by
  simp [isFull, List.any_eq_true]

theorem minimaxLoop_bounds (symbol : Mark) (depth : Int) (isMaximizing : Bool) :
    ∀ (k i : Nat) (board : Board) (bestScore : Int), i + k = 9 →
      (∀ b, emptyCount b < emptyCount board →
        -10 ≤ minimax symbol b (depth + 1) (!isMaximizing)
          ∧ minimax symbol b (depth + 1) (!isMaximizing) ≤ 10) →
      ((-10 ≤ bestScore ∧ bestScore ≤ 10)
        ∨ (bestScore = (if isMaximizing then -1000 else 1000)
            ∧ ∃ j : Fin 9, i ≤ j.val ∧ board j = ' ')) →
      -10 ≤ minimaxLoop symbol depth isMaximizing i board bestScore
        ∧ minimaxLoop symbol depth isMaximizing i board bestScore ≤ 10 := by
  intro k
  induction k with
  | zero =>
    intro i board bestScore hi _ hbest
    rw [minimaxLoop]
    simp only [show ¬ i < 9 by omega, if_false]
    rcases hbest with h | ⟨-, j, hj, -⟩
    · exact h
    · have := j.isLt; omega
  | succ k ih =>
    intro i board bestScore hi hcall hbest
    rw [minimaxLoop]
    have hlt : i < 9 := by omega
    simp only [hlt, if_true]
    by_cases he : isEmptyCell board (i : Int) = true
    · have hdec := emptyCount_makeMove_lt board i (mover symbol isMaximizing)
        (mover_ne_blank _ _) he
      simp only [he, dite_true]
      have hs := hcall _ hdec
      refine ih _ _ _ (by omega) (fun b hb => hcall b (lt_trans hb hdec)) (Or.inl ?_)
      cases isMaximizing with
      | true =>
        simp only [if_true] at hbest ⊢
        rcases hbest with h | ⟨h, -⟩
        · exact ⟨le_trans hs.1 (le_max_left _ _), max_le hs.2 h.2⟩
        · rw [h, max_eq_left (by omega)]; exact hs
      | false =>
        simp only [Bool.false_eq_true, if_false] at hbest ⊢
        rcases hbest with h | ⟨h, -⟩
        · exact ⟨le_min hs.1 h.1, le_trans (min_le_left _ _) hs.2⟩
        · rw [h, min_eq_left (by omega)]; exact hs
    · simp only [he, dite_false]
      refine ih _ _ _ (by omega) hcall ?_
      rcases hbest with h | ⟨h, j, hj, hbj⟩
      · exact Or.inl h
      · refine Or.inr ⟨h, j, ?_, hbj⟩
        rcases Nat.eq_or_lt_of_le hj with heq | hlt2
        · exact absurd ((isEmptyCell_natCast board i).2 ⟨hlt, by
            have : (⟨i, hlt⟩ : Fin 9) = j := Fin.ext heq
            rw [this]; exact hbj⟩) he
        · exact hlt2

/-- From a depth `d ≥ 0` with `d` plus the number of blank cells at most 9, every
score `minimax` returns lies between `-10` and `10`. -/
theorem minimax_bounds (symbol : Mark) :
    ∀ (n : Nat) (board : Board), emptyCount board < n →
      ∀ (depth : Int) (isMaximizing : Bool), 0 ≤ depth → depth + emptyCount board ≤ 9 →
        -10 ≤ minimax symbol board depth isMaximizing
          ∧ minimax symbol board depth isMaximizing ≤ 10 := by
  intro n
  induction n with
  | zero => intro board h; omega
  | succ n ih =>
    intro board hn depth isMaximizing hd hsum
    rw [minimax]
    split
    · constructor <;> omega
    · split
      · constructor <;> omega
      · split
        · constructor <;> omega
        · rename_i hfull
          have hex : ∃ j : Fin 9, board j = ' ' :=
            (isFull_eq_false_iff board).1 (by simpa using hfull)
          refine minimaxLoop_bounds symbol depth isMaximizing 9 0 board _ (by omega)
            (fun b hb => ih b (by omega) _ _ (by omega) (by omega)) (Or.inr ⟨rfl, ?_⟩)
          obtain ⟨j, hj⟩ := hex
          exact ⟨j, Nat.zero_le _, hj⟩

/-- The score of a candidate blank cell lies between `-10` and `10`. -/
theorem candidateScore_bounds (symbol : Mark) (board : Board) (i : Nat)
    (h : isEmptyCell board (i : Int) = true) :
    -10 ≤ candidateScore symbol board i ∧ candidateScore symbol board i ≤ 10 := by
  have hdec := emptyCount_makeMove_lt board i symbol.toChar symbol.toChar_ne_blank h
  have hle := emptyCount_le board
  exact minimax_bounds symbol 9 _ (by omega) 0 false le_rfl (by omega)

/-! ## The loop of `makeMinimaxMove` -/

/-- State of `(bestScore, bestMove)` after the loop of `makeMinimaxMove` has visited
the cells below `n`: either no visited cell was blank and the pair is still
`(-1000, -1)`, or the pair is the score and index of the first visited blank cell whose
score is the largest among the visited blank cells. -/
theorem minimaxSearch_prefix (symbol : Mark) (board : Board) :
    ∀ n : Nat, n ≤ 9 →
      ((List.range n).foldl (searchStep symbol board) (-1000, -1) = (-1000, -1)
          ∧ ∀ j : Nat, j < n → isEmptyCell board (j : Int) = false)
      ∨ ∃ j : Nat, j < n ∧ isEmptyCell board (j : Int) = true
          ∧ (List.range n).foldl (searchStep symbol board) (-1000, -1)
              = (candidateScore symbol board j, (j : Int))
          ∧ (∀ j1 : Nat, j1 < n → isEmptyCell board (j1 : Int) = true →
              candidateScore symbol board j1 ≤ candidateScore symbol board j)
          ∧ (∀ j1 : Nat, j1 < j → isEmptyCell board (j1 : Int) = true →
              candidateScore symbol board j1 < candidateScore symbol board j) := by
  intro n
  induction n with
  | zero => intro _; exact Or.inl ⟨rfl, fun j hj => absurd hj (Nat.not_lt_zero j)⟩
  | succ n ih =>
    intro hn
    rw [List.range_succ, List.foldl_append, List.foldl_cons, List.foldl_nil]
    cases he : isEmptyCell board (n : Int) with
    | false =>
      have hstep : ∀ best, searchStep symbol board best n = best := by
        intro best; simp [searchStep, he]
      rw [hstep]
      rcases ih (by omega) with ⟨h0, hall⟩ | ⟨j, hj, hje, hr, hmax, hfirst⟩
      · refine Or.inl ⟨h0, fun j1 hj1 => ?_⟩
        rcases Nat.lt_succ_iff_lt_or_eq.1 hj1 with h | h
        · exact hall j1 h
        · rw [h]; exact he
      · refine Or.inr ⟨j, by omega, hje, hr, fun j1 hj1 hj1e => ?_, hfirst⟩
        rcases Nat.lt_succ_iff_lt_or_eq.1 hj1 with h | h
        · exact hmax j1 h hj1e
        · rw [h, he] at hj1e; cases hj1e
    | true =>
      have hb := candidateScore_bounds symbol board n he
      rcases ih (by omega) with ⟨h0, hall⟩ | ⟨j, hj, hje, hr, hmax, hfirst⟩
      · refine Or.inr ⟨n, Nat.lt_succ_self n, he, ?_, fun j1 hj1 hj1e => ?_, fun j1 hj1 hj1e => ?_⟩
        · rw [h0]
          have : candidateScore symbol board n > -1000 := by omega
          simp [searchStep, he, this]
        · rcases Nat.lt_succ_iff_lt_or_eq.1 hj1 with h | h
          · rw [hall j1 h] at hj1e; cases hj1e
          · rw [h]
        · rw [hall j1 hj1] at hj1e; cases hj1e
      · rw [hr]
        by_cases hgt : candidateScore symbol board n > candidateScore symbol board j
        · refine Or.inr ⟨n, Nat.lt_succ_self n, he, ?_, fun j1 hj1 hj1e => ?_,
            fun j1 hj1 hj1e => ?_⟩
          · simp [searchStep, he, hgt]
          · rcases Nat.lt_succ_iff_lt_or_eq.1 hj1 with h | h
            · exact le_trans (hmax j1 h hj1e) (le_of_lt hgt)
            · rw [h]
          · exact lt_of_le_of_lt (hmax j1 hj1 hj1e) hgt
        · refine Or.inr ⟨j, by omega, hje, ?_, fun j1 hj1 hj1e => ?_, hfirst⟩
          · simp [searchStep, he, hgt]
          · rcases Nat.lt_succ_iff_lt_or_eq.1 hj1 with h | h
            · exact hmax j1 h hj1e
            · rw [h]; exact not_lt.1 hgt

/-- What the loop of `makeMinimaxMove` ends with: `(-1000, -1)` when no cell is blank,
and otherwise the score and index of the lowest-index blank cell among those with the
largest candidate score. -/
theorem minimaxSearch_spec (symbol : Mark) (board : Board) :
    (minimaxSearch symbol board = (-1000, -1)
        ∧ ∀ j : Nat, j < 9 → isEmptyCell board (j : Int) = false)
    ∨ ∃ j : Nat, j < 9 ∧ isEmptyCell board (j : Int) = true
        ∧ minimaxSearch symbol board = (candidateScore symbol board j, (j : Int))
        ∧ (∀ j1 : Nat, j1 < 9 → isEmptyCell board (j1 : Int) = true →
            candidateScore symbol board j1 ≤ candidateScore symbol board j)
        ∧ (∀ j1 : Nat, j1 < j → isEmptyCell board (j1 : Int) = true →
            candidateScore symbol board j1 < candidateScore symbol board j) :=
  minimaxSearch_prefix symbol board 9 le_rfl

/-- C10: if the board has a blank cell, the best move found by `makeMinimaxMove` is not
`-1` and the board after the call differs from the board before at exactly one cell,
the best move, which was blank and now holds the symbol of the player; if the board has
no blank cell, the best move is `-1` and the board is unchanged. -/
theorem makeMinimaxMove_frame (symbol : Mark) (board : Board) :
    ((∃ i : Fin 9, board i = ' ') →
        (minimaxSearch symbol board).2 ≠ -1
        ∧ ∃ i : Fin 9, (minimaxSearch symbol board).2 = (i.val : Int)
            ∧ board i = ' '
            ∧ makeMinimaxMove symbol board i = symbol.toChar
            ∧ makeMinimaxMove symbol board i ≠ board i
            ∧ ∀ j : Fin 9, j ≠ i → makeMinimaxMove symbol board j = board j)
    ∧ ((∀ i : Fin 9, board i ≠ ' ') →
        (minimaxSearch symbol board).2 = -1 ∧ makeMinimaxMove symbol board = board) := by
  constructor
  · rintro ⟨i0, hi0⟩
    rcases minimaxSearch_spec symbol board with ⟨-, hall⟩ | ⟨j, hj, hje, hr, -, -⟩
    · have h1 := hall i0.val i0.isLt
      rw [(isEmptyCell_natCast board i0.val).2 ⟨i0.isLt, hi0⟩] at h1
      cases h1
    · obtain ⟨hj9, hbj⟩ := (isEmptyCell_natCast board j).1 hje
      have hne : ((j : Int)) ≠ -1 := by omega
      have hmove : makeMinimaxMove symbol board
          = Function.update board ⟨j, hj9⟩ symbol.toChar := by
        unfold makeMinimaxMove
        rw [hr]
        simp only [ne_eq, hne, not_false_eq_true, if_true]
        rw [makeMove_natCast board j _ hj9 hbj]
      refine ⟨by rw [hr]; exact hne, ⟨j, hj9⟩, by rw [hr], hbj, ?_, ?_, ?_⟩
      · rw [hmove]; simp
      · rw [hmove, hbj]; simp [symbol.toChar_ne_blank]
      · intro j1 hj1; rw [hmove]; simp [Function.update_noteq hj1]
  · intro hfull
    rcases minimaxSearch_spec symbol board with ⟨h0, -⟩ | ⟨j, hj, hje, -⟩
    · refine ⟨by rw [h0], ?_⟩
      unfold makeMinimaxMove
      rw [h0]
      simp
    · obtain ⟨hj9, hbj⟩ := (isEmptyCell_natCast board j).1 hje
      exact absurd hbj (hfull _)

/-! ## Exhaustive play -/

theorem emptyCount_eq_zero_isFull (b : Board) (h : emptyCount b = 0) : isFull b = true := by
  rw [isFull_iff]
  intro j hj
  have : j ∈ Finset.univ.filter (fun i : Fin 9 => b i = ' ') := by simp [hj]
  unfold emptyCount at h
  rw [Finset.card_eq_zero] at h
  rw [h] at this
  exact absurd this (Finset.not_mem_empty j)

/-- A forced win within `n` plies is a forced win within `n + 1` plies. -/
theorem forcedWin_succ (M : Mark) :
    ∀ (n : Nat) (toMove : Mark) (b : Board),
      forcedWin M n toMove b = true → forcedWin M (n + 1) toMove b = true := by
  intro n
  induction n with
  | zero =>
    intro toMove b h
    simp only [forcedWin] at h
    simp [forcedWin, h]
  | succ n ih =>
    intro toMove b h
    rw [forcedWin] at h ⊢
    split
    · rfl
    · rename_i h1
      rw [if_neg h1] at h
      split
      · rename_i h2; rw [if_pos h2] at h; exact h
      · rename_i h2
        rw [if_neg h2] at h
        split
        · rename_i h3; rw [if_pos h3] at h; exact h
        · rename_i h3
          rw [if_neg h3] at h
          split
          · rename_i h4
            rw [if_pos h4, List.any_eq_true] at h
            obtain ⟨i, hi, hw⟩ := h
            rw [List.any_eq_true]
            refine ⟨i, hi, ?_⟩
            rw [Bool.and_eq_true] at hw ⊢
            exact ⟨hw.1, ih _ _ hw.2⟩
          · rename_i h4
            rw [if_neg h4, List.all_eq_true] at h
            rw [List.all_eq_true]
            intro i hi
            have hw := h i hi
            rw [Bool.or_eq_true] at hw ⊢
            exact hw.imp id (ih _ _)

/-- Once `n` is at least the number of blank cells, more plies change nothing:
`forcedWin M n` is then the forced win of unbounded exhaustive play. -/
theorem forcedWin_stable (M : Mark) :
    ∀ (n : Nat) (toMove : Mark) (b : Board), emptyCount b ≤ n →
      forcedWin M (n + 1) toMove b = forcedWin M n toMove b := by
  intro n
  induction n with
  | zero =>
    intro toMove b h
    have hfull := emptyCount_eq_zero_isFull b (Nat.le_zero.1 h)
    simp only [forcedWin, hfull, if_true]
    cases checkWin b M.toChar <;> cases checkWin b M.other.toChar <;> rfl
  | succ n ih =>
    intro toMove b h
    have hstep : ∀ i : Nat,
        (isEmptyCell b (i : Int)
          && forcedWin M (n + 1) toMove.other (makeMove b (i : Int) toMove.toChar).2)
        = (isEmptyCell b (i : Int)
          && forcedWin M n toMove.other (makeMove b (i : Int) toMove.toChar).2) := by
      intro i
      cases he : isEmptyCell b (i : Int) with
      | false => simp [he]
      | true =>
        have hdec := emptyCount_makeMove_lt b i toMove.toChar toMove.toChar_ne_blank he
        simp only [he, Bool.true_and]
        exact ih _ _ (by omega)
    have hstep2 : ∀ i : Nat,
        (!isEmptyCell b (i : Int)
          || forcedWin M (n + 1) toMove.other (makeMove b (i : Int) toMove.toChar).2)
        = (!isEmptyCell b (i : Int)
          || forcedWin M n toMove.other (makeMove b (i : Int) toMove.toChar).2) := by
      intro i
      cases he : isEmptyCell b (i : Int) with
      | false => simp
      | true =>
        have hdec := emptyCount_makeMove_lt b i toMove.toChar toMove.toChar_ne_blank he
        simp only [Bool.not_true, Bool.false_or]
        exact ih _ _ (by omega)
    rw [forcedWin, forcedWin]
    simp only [hstep, hstep2]

/-- From 9 plies on the bound no longer matters, on any board. -/
theorem forcedWin_nine (M : Mark) (toMove : Mark) (b : Board) :
    ∀ n : Nat, forcedWin M (9 + n) toMove b = forcedWin M 9 toMove b := by
  intro n
  induction n with
  | zero => rfl
  | succ n ih =>
    rw [← ih, ← Nat.add_assoc]
    exact forcedWin_stable M (9 + n) toMove b (le_trans (emptyCount_le b) (Nat.le_add_right 9 n))

/-! ## Packed boards compute the same results -/

theorem withNat_eq {α : Type} (n : Nat) (k : Nat → α) : withNat n k = k n := by
  cases n <;> rfl

theorem withInt_eq {α : Type} (z : Int) (k : Int → α) : withInt z k = k z := by
  cases z <;> simp only [withInt, withNat_eq]

theorem withBool_eq {α : Type} (x : Bool) (k : Bool → α) : withBool x k = k x := by
  cases x <;> rfl

theorem withMark_eq {α : Type} (m : Mark) (k : Mark → α) : withMark m k = k m := by
  cases m <;> rfl

theorem withPacked_eq {α : Type} (c : Packed) (k : Packed → α) : withPacked c k = k c := by
  simp only [withPacked, withNat_eq]

theorem unpack_beq_toChar (m : Mark) (c : Packed) (i : Fin 9) :
    (unpack c i == m.toChar) = packedIs m c i.val := by
  cases m <;> simp only [unpack, packedIs, Mark.toChar] <;>
    cases c.1.testBit i.val <;> cases c.2.testBit i.val <;> decide

theorem unpack_eq_toChar (m : Mark) (c : Packed) (i : Fin 9) :
    unpack c i = m.toChar ↔ packedIs m c i.val = true := by
  rw [← unpack_beq_toChar, beq_iff_eq]

theorem unpack_eq_blank (c : Packed) (i : Fin 9) :
    unpack c i = ' ' ↔ (c.1.testBit i.val = false ∧ c.2.testBit i.val = false) := by
  simp only [unpack]
  cases c.1.testBit i.val <;> cases c.2.testBit i.val <;> decide

theorem isEmptyCell_unpack (c : Packed) (i : Nat) :
    isEmptyCell (unpack c) (i : Int) = packedEmpty c i := by
  rw [Bool.eq_iff_iff, isEmptyCell_natCast]
  simp only [packedEmpty, Bool.and_eq_true, decide_eq_true_eq, Bool.not_eq_true']
  constructor
  · rintro ⟨h, hb⟩
    have := (unpack_eq_blank c ⟨i, h⟩).1 hb
    exact ⟨⟨h, this.1⟩, this.2⟩
  · rintro ⟨⟨h, h1⟩, h2⟩
    exact ⟨h, (unpack_eq_blank c ⟨i, h⟩).2 ⟨h1, h2⟩⟩

theorem checkWin_unpack (m : Mark) (c : Packed) :
    checkWin (unpack c) m.toChar = packedWin m c := by
  rw [Bool.eq_iff_iff, checkWin_iff_line]
  simp only [packedWin, winLines, Bool.or_eq_true, Bool.and_eq_true, unpack_eq_toChar, and_assoc,
    or_assoc, List.mem_cons, List.mem_singleton, exists_eq_or_imp, exists_eq_left,
    List.not_mem_nil, false_and, exists_false, or_false]
  rfl

theorem isFull_unpack (c : Packed) : isFull (unpack c) = packedFull c := by
  rw [Bool.eq_iff_iff, isFull_iff]
  simp only [packedFull, List.all_eq_true, List.mem_range, Bool.or_eq_true]
  constructor
  · intro h i hi
    have := h ⟨i, hi⟩
    rw [Ne, unpack_eq_blank] at this
    simp only [] at this
    cases h1 : c.1.testBit i <;> cases h2 : c.2.testBit i <;> simp_all
  · intro h i
    rw [Ne, unpack_eq_blank]
    rcases h i.val i.isLt with h1 | h1 <;> simp [h1]

theorem makeMove_unpack (m : Mark) (c : Packed) (i : Nat) (h : packedEmpty c i = true) :
    (makeMove (unpack c) (i : Int) m.toChar).2 = unpack (packedSet m c i) := by
  rw [← isEmptyCell_unpack] at h
  have he := h
  obtain ⟨hi, hb⟩ := (isEmptyCell_natCast _ i).1 h
  rw [makeMove_natCast _ i _ hi hb]
  obtain ⟨h1, h2⟩ := (unpack_eq_blank c ⟨i, hi⟩).1 hb
  simp only [] at h1 h2
  funext j
  by_cases hji : j = ⟨i, hi⟩
  · subst hji
    cases m <;>
      simp [unpack, packedSet, Mark.toChar, Nat.testBit_or, Nat.testBit_two_pow_self, h1, h2]
  · have hne : i ≠ j.val := fun h => hji (Fin.ext h.symm)
    show Function.update (unpack c) ⟨i, hi⟩ m.toChar j = _
    rw [Function.update_noteq hji]
    cases m <;>
      simp [unpack, packedSet, Nat.testBit_or, Nat.testBit_two_pow_of_ne hne]

theorem mover_eq_moverMark (symbol : Mark) (isMaximizing : Bool) :
    mover symbol isMaximizing = (moverMark symbol isMaximizing).toChar := by
  cases symbol <;> cases isMaximizing <;> rfl

theorem opponentOf_toChar (symbol : Mark) : opponentOf symbol.toChar = symbol.other.toChar := by
  cases symbol <;> rfl

theorem packedLoop_eq (call : Packed → Int → Bool → Int) (call1 : Board → Int → Bool → Int)
    (hcall : ∀ c d m, call c d m = call1 (unpack c) d m)
    (symbol : Mark) (depth : Int) (isMaximizing : Bool) :
    ∀ (k i : Nat) (c : Packed) (bestScore : Int),
      packedLoop call symbol depth isMaximizing k i c bestScore
        = minimaxLoopFuel call1 symbol depth isMaximizing k i (unpack c) bestScore := by
  intro k
  induction k with
  | zero => intro i c bestScore; rfl
  | succ k ih =>
    intro i c bestScore
    rw [packedLoop, minimaxLoopFuel, isEmptyCell_unpack]
    by_cases he : packedEmpty c i = true
    · simp only [he, if_true, withPacked_eq, withInt_eq, withBool_eq]
      rw [mover_eq_moverMark, makeMove_unpack _ c i he, ← hcall, ih]
    · simp only [he, if_false]
      exact ih _ _ _

theorem packedMinimax_eq (symbol : Mark) :
    ∀ (fuel : Nat) (c : Packed) (depth : Int) (isMaximizing : Bool),
      packedMinimax fuel symbol c depth isMaximizing
        = minimaxFuel fuel symbol (unpack c) depth isMaximizing := by
  intro fuel
  induction fuel with
  | zero => intro c depth isMaximizing; rfl
  | succ fuel ih =>
    intro c depth isMaximizing
    rw [packedMinimax, minimaxFuel, opponentOf_toChar, checkWin_unpack, checkWin_unpack,
      isFull_unpack, packedLoop_eq _ (minimaxFuel fuel symbol) (fun c d m => ih c d m)]

theorem minimaxSearch_unpack (symbol : Mark) (c : Packed) :
    minimaxSearch symbol (unpack c) = packedSearch symbol c := by
  unfold minimaxSearch packedSearch
  congr 1
  funext best i
  simp only [searchStep, candidateScore, isEmptyCell_unpack, withInt_eq, withPacked_eq]
  cases he : packedEmpty c i with
  | false => rfl
  | true => rw [makeMove_unpack _ c i he, minimax_eq_minimaxFuel, packedMinimax_eq]

theorem forcedWin_unpack (M : Mark) :
    ∀ (n : Nat) (toMove : Mark) (c : Packed),
      forcedWin M n toMove (unpack c) = packedForcedWin M n toMove c := by
  intro n
  induction n with
  | zero => intro toMove c; simp only [forcedWin, packedForcedWin, checkWin_unpack]
  | succ n ih =>
    intro toMove c
    simp only [forcedWin, packedForcedWin, checkWin_unpack, isFull_unpack, isEmptyCell_unpack,
      withPacked_eq, withMark_eq]
    have hany : ∀ i, (packedEmpty c i
          && forcedWin M n toMove.other (makeMove (unpack c) (i : Int) toMove.toChar).2)
        = (packedEmpty c i && packedForcedWin M n toMove.other (packedSet toMove c i)) := by
      intro i
      cases he : packedEmpty c i with
      | false => rfl
      | true => rw [makeMove_unpack _ c i he, ih]
    have hall : ∀ i, (!packedEmpty c i
          || forcedWin M n toMove.other (makeMove (unpack c) (i : Int) toMove.toChar).2)
        = (!packedEmpty c i || packedForcedWin M n toMove.other (packedSet toMove c i)) := by
      intro i
      cases he : packedEmpty c i with
      | false => rfl
      | true => rw [makeMove_unpack _ c i he, ih]
    simp only [hany, hall]

theorem candidateScore_unpack (symbol : Mark) (c : Packed) (i : Nat)
    (h : packedEmpty c i = true) :
    candidateScore symbol (unpack c) i
      = packedMinimax 10 symbol (packedSet symbol c i) 0 false := by
  rw [candidateScore, makeMove_unpack _ c i h, minimax_eq_minimaxFuel, packedMinimax_eq]

theorem forcedWin_after (M : Mark) (n : Nat) (toMove : Mark) (c : Packed) (i : Nat)
    (h : packedEmpty c i = true) :
    forcedWin M n toMove.other (makeMove (unpack c) (i : Int) toMove.toChar).2
      = packedForcedWin M n toMove.other (packedSet toMove c i) := by
  rw [makeMove_unpack toMove c i h, forcedWin_unpack]

/-! ## Steps of the turn loop -/

theorem makeMinimaxMove_of_search (symbol : Mark) (board : Board) (s : Int) (j : Nat)
    (h : minimaxSearch symbol board = (s, (j : Int))) :
    makeMinimaxMove symbol board = (makeMove board (j : Int) symbol.toChar).2 := by
  have hne : ((j : Int)) ≠ -1 := by omega
  unfold makeMinimaxMove
  rw [h]
  simp only [ne_eq, hne, not_false_eq_true, if_true]

theorem gameReach_turn1 {player1 player2 : Policy} {b b1 : Board}
    (h : GameReach player1 player2 b 0) (hrun : gameRunning b = true) (hp : player1 b b1) :
    GameReach player1 player2 b1 1 :=
  GameReach.turn h hrun hp

theorem gameReach_turn2 {player1 player2 : Policy} {b b1 : Board}
    (h : GameReach player1 player2 b 1) (hrun : gameRunning b = true) (hp : player2 b b1) :
    GameReach player1 player2 b1 0 :=
  GameReach.turn h hrun hp

theorem legalMove_boardOf (symbol : Mark) (b b1 : Board) (i : Nat)
    (he : isEmptyCell b (i : Int) = true) (hb : (makeMove b (i : Int) symbol.toChar).2 = b1) :
    legalMovePolicy symbol b b1 :=
  ⟨i, he, hb.symm⟩

theorem cornerBoard_eq : cornerBoard = unpack (1, 0) := by
  funext i; fin_cases i <;> rfl

theorem blockBoard_eq : blockBoard = unpack (3, 24) := by
  funext i; fin_cases i <;> rfl

theorem raceBoard_eq : raceBoard = unpack (129, 6) := by
  funext i; fin_cases i <;> rfl

/-- On the empty board every candidate of X scores `-9`; the loop keeps the first. -/
theorem minimaxSearch_emptyBoard :
    minimaxSearch Mark.X emptyBoard = (-9, ((0 : Nat) : Int)) := by
  rw [show emptyBoard = unpack (0, 0) from by funext i; fin_cases i <;> rfl,
    minimaxSearch_unpack]
  decide!

/-- C1, at the board after X has opened in cell 0 (reachable, nobody has won, O to
move): the reply 4 leaves X without a forced win, yet `makeMinimaxMove` for O plays
cell 1, after which X has a forced win. -/
theorem minimaxMove_allows_forced_win :
    Reachable cornerBoard Mark.O
    ∧ gameRunning cornerBoard = true
    ∧ isEmptyCell cornerBoard 4 = true
    ∧ forcedWin Mark.X 9 Mark.X (makeMove cornerBoard 4 'O').2 = false
    ∧ (minimaxSearch Mark.O cornerBoard).2 = 1
    ∧ forcedWin Mark.X 9 Mark.X (makeMinimaxMove Mark.O cornerBoard) = true := by
  have hs : minimaxSearch Mark.O cornerBoard = (-9, ((1 : Nat) : Int)) := by
    rw [cornerBoard_eq, minimaxSearch_unpack]; decide!
  refine ⟨?_, by decide!, by decide!, ?_, by rw [hs]; rfl, ?_⟩
  · exact gameReach_turn1 GameReach.start (by decide!)
      (legalMove_boardOf Mark.X _ _ 0 (by decide!) (by funext i; fin_cases i <;> rfl))
  · rw [cornerBoard_eq]
    exact (forcedWin_after Mark.X 9 Mark.O (1, 0) 4 (by decide)).trans (by decide!)
  · rw [makeMinimaxMove_of_search _ _ _ _ hs, cornerBoard_eq]
    exact (forcedWin_after Mark.X 9 Mark.O (1, 0) 1 (by decide)).trans (by decide!)

/-- C2, at the call `minimax(lateBoard, 0, false)` of a player with symbol X (the call
`makeMinimaxMove` makes for candidate 4 on `_ _ O / O _ X / X O X`): `minimax` returns
`-9`, the reference minimax on private copies returns `0`. -/
theorem minimax_differs_from_reference :
    minimax Mark.X lateBoard 0 false = -9
    ∧ minimaxRef 10 Mark.X lateBoard 0 false = some 0 := by
  constructor
  · rw [show lateBoard = unpack (368, 140) from by funext i; fin_cases i <;> rfl,
      minimax_eq_minimaxFuel, ← packedMinimax_eq]
    decide!
  · decide!

/-- C4, on the empty board with minimax playing X: the search selects cell 0, and the
best score it finds is `-9`, not `0`. -/
theorem emptyBoard_bestScore :
    (minimaxSearch Mark.X emptyBoard).2 = 0
    ∧ (minimaxSearch Mark.X emptyBoard).1 = -9
    ∧ (minimaxSearch Mark.X emptyBoard).1 ≠ 0 := by
  rw [minimaxSearch_emptyBoard]
  decide

/-- C5: on `X X _ / O O _ / _ _ _` the blank cells are 2, 5, 6, 7, 8; minimax playing O
chooses cell 5 and places O there; each of the cells 2, 6, 7, 8 has a strictly lower
candidate score than cell 5. -/
theorem blockBoard_choice :
    (∀ i : Nat, i < 9 →
      (isEmptyCell blockBoard (i : Int) = true ↔ i = 2 ∨ i = 5 ∨ i = 6 ∨ i = 7 ∨ i = 8))
    ∧ (minimaxSearch Mark.O blockBoard).2 = 5
    ∧ makeMinimaxMove Mark.O blockBoard = boardOf ['X', 'X', ' ', 'O', 'O', 'O', ' ', ' ', ' ']
    ∧ candidateScore Mark.O blockBoard 2 < candidateScore Mark.O blockBoard 5
    ∧ candidateScore Mark.O blockBoard 6 < candidateScore Mark.O blockBoard 5
    ∧ candidateScore Mark.O blockBoard 7 < candidateScore Mark.O blockBoard 5
    ∧ candidateScore Mark.O blockBoard 8 < candidateScore Mark.O blockBoard 5 := by
  have hs : minimaxSearch Mark.O blockBoard = (10, ((5 : Nat) : Int)) := by
    rw [blockBoard_eq, minimaxSearch_unpack]; decide!
  refine ⟨?_, by rw [hs]; rfl, ?_, ?_, ?_, ?_, ?_⟩
  · simp only [blockBoard_eq, isEmptyCell_unpack]; decide
  · rw [makeMinimaxMove_of_search _ _ _ _ hs]
    funext i; fin_cases i <;> rfl
  all_goals
    rw [blockBoard_eq, candidateScore_unpack _ _ _ (by decide),
      candidateScore_unpack _ _ _ (by decide)]
    decide!

/-- C6, on the reachable board `X O O / _ _ _ / _ X _` with X to move: after cell 6
X has a forced win within 2 plies; after cell 3 X has a forced win within 4 plies and
none within 3; `makeMinimaxMove` for X plays cell 3. -/
theorem minimaxMove_picks_slower_win :
    Reachable raceBoard Mark.X
    ∧ isEmptyCell raceBoard 6 = true
    ∧ isEmptyCell raceBoard 3 = true
    ∧ forcedWin Mark.X 2 Mark.O (makeMove raceBoard 6 'X').2 = true
    ∧ forcedWin Mark.X 3 Mark.O (makeMove raceBoard 3 'X').2 = false
    ∧ forcedWin Mark.X 4 Mark.O (makeMove raceBoard 3 'X').2 = true
    ∧ (minimaxSearch Mark.X raceBoard).2 = 3
    ∧ makeMinimaxMove Mark.X raceBoard = (makeMove raceBoard 3 'X').2 := by
  have hs : minimaxSearch Mark.X raceBoard = (-9, ((3 : Nat) : Int)) := by
    rw [raceBoard_eq, minimaxSearch_unpack]; decide!
  have h1 : Reachable (boardOf ['X', ' ', ' ', ' ', ' ', ' ', ' ', ' ', ' ']) Mark.O :=
    gameReach_turn1 GameReach.start (by decide!)
      (legalMove_boardOf Mark.X _ _ 0 (by decide!) (by funext i; fin_cases i <;> rfl))
  have h2 : Reachable (boardOf ['X', 'O', ' ', ' ', ' ', ' ', ' ', ' ', ' ']) Mark.X :=
    gameReach_turn2 h1 (by decide!)
      (legalMove_boardOf Mark.O _ _ 1 (by decide!) (by funext i; fin_cases i <;> rfl))
  have h3 : Reachable (boardOf ['X', 'O', ' ', ' ', ' ', ' ', ' ', 'X', ' ']) Mark.O :=
    gameReach_turn1 h2 (by decide!)
      (legalMove_boardOf Mark.X _ _ 7 (by decide!) (by funext i; fin_cases i <;> rfl))
  have h4 : Reachable raceBoard Mark.X :=
    gameReach_turn2 h3 (by decide!)
      (legalMove_boardOf Mark.O _ _ 2 (by decide!) (by funext i; fin_cases i <;> rfl))
  refine ⟨h4, by decide!, by decide!, ?_, ?_, ?_, by rw [hs]; rfl,
    makeMinimaxMove_of_search _ _ _ _ hs⟩
  · rw [raceBoard_eq]
    exact (forcedWin_after Mark.X 2 Mark.X (129, 6) 6 (by decide)).trans (by decide!)
  · rw [raceBoard_eq]
    exact (forcedWin_after Mark.X 3 Mark.X (129, 6) 3 (by decide)).trans (by decide!)
  · rw [raceBoard_eq]
    exact (forcedWin_after Mark.X 4 Mark.X (129, 6) 3 (by decide)).trans (by decide!)

/-! ## The choice of `makeMinimaxMove`, terminal scores, and the board queries -/

/-- C11: on a board with a blank cell, the cell `makeMinimaxMove` plays is the blank
cell of largest candidate score, and among the blank cells with that score the one of
smallest index: every blank cell before it has a strictly smaller score. -/
theorem makeMinimaxMove_first_max (symbol : Mark) (board : Board)
    (h : ∃ i : Fin 9, board i = ' ') :
    ∃ j : Nat, j < 9 ∧ isEmptyCell board (j : Int) = true
      ∧ (minimaxSearch symbol board).2 = (j : Int)
      ∧ makeMinimaxMove symbol board = (makeMove board (j : Int) symbol.toChar).2
      ∧ (∀ j1 : Nat, j1 < 9 → isEmptyCell board (j1 : Int) = true →
          candidateScore symbol board j1 ≤ candidateScore symbol board j)
      ∧ (∀ j1 : Nat, j1 < j → isEmptyCell board (j1 : Int) = true →
          candidateScore symbol board j1 < candidateScore symbol board j) := by
  obtain ⟨i0, hi0⟩ := h
  rcases minimaxSearch_spec symbol board with ⟨-, hall⟩ | ⟨j, hj, hje, hr, hmax, hfirst⟩
  · have h1 := hall i0.val i0.isLt
    rw [(isEmptyCell_natCast board i0.val).2 ⟨i0.isLt, hi0⟩] at h1
    cases h1
  · exact ⟨j, hj, hje, by rw [hr], makeMinimaxMove_of_search symbol board _ j hr, hmax, hfirst⟩

theorem makeMinimaxMove_first_max_witness :
    ∃ j : Nat, j < 9 ∧ isEmptyCell emptyBoard (j : Int) = true
      ∧ (minimaxSearch Mark.X emptyBoard).2 = (j : Int)
      ∧ makeMinimaxMove Mark.X emptyBoard = (makeMove emptyBoard (j : Int) Mark.X.toChar).2
      ∧ (∀ j1 : Nat, j1 < 9 → isEmptyCell emptyBoard (j1 : Int) = true →
          candidateScore Mark.X emptyBoard j1 ≤ candidateScore Mark.X emptyBoard j)
      ∧ (∀ j1 : Nat, j1 < j → isEmptyCell emptyBoard (j1 : Int) = true →
          candidateScore Mark.X emptyBoard j1 < candidateScore Mark.X emptyBoard j) :=
  makeMinimaxMove_first_max Mark.X emptyBoard ⟨0, rfl⟩

/-- C12: on a board with a blank cell, the score of every candidate first move, and the
best score the loop of `makeMinimaxMove` ends with, lie between `-10` and `10`; in
particular none of them is one of the sentinels `-1000` and `1000`. -/
theorem candidate_scores_in_range (symbol : Mark) (board : Board)
    (h : ∃ i : Fin 9, board i = ' ') :
    (∀ i : Nat, isEmptyCell board (i : Int) = true →
        -10 ≤ candidateScore symbol board i ∧ candidateScore symbol board i ≤ 10
        ∧ candidateScore symbol board i ≠ -1000 ∧ candidateScore symbol board i ≠ 1000)
    ∧ -10 ≤ (minimaxSearch symbol board).1 ∧ (minimaxSearch symbol board).1 ≤ 10
    ∧ (minimaxSearch symbol board).1 ≠ -1000 ∧ (minimaxSearch symbol board).1 ≠ 1000 := by
  have hc : ∀ i : Nat, isEmptyCell board (i : Int) = true →
      -10 ≤ candidateScore symbol board i ∧ candidateScore symbol board i ≤ 10
      ∧ candidateScore symbol board i ≠ -1000 ∧ candidateScore symbol board i ≠ 1000 := by
    intro i hi
    have hb := candidateScore_bounds symbol board i hi
    exact ⟨hb.1, hb.2, by omega, by omega⟩
  refine ⟨hc, ?_⟩
  obtain ⟨i0, hi0⟩ := h
  rcases minimaxSearch_spec symbol board with ⟨-, hall⟩ | ⟨j, hj, hje, hr, -, -⟩
  · have h1 := hall i0.val i0.isLt
    rw [(isEmptyCell_natCast board i0.val).2 ⟨i0.isLt, hi0⟩] at h1
    cases h1
  · rw [hr]
    exact hc j hje

theorem candidate_scores_in_range_witness :
    (∀ i : Nat, isEmptyCell blockBoard (i : Int) = true →
        -10 ≤ candidateScore Mark.O blockBoard i ∧ candidateScore Mark.O blockBoard i ≤ 10
        ∧ candidateScore Mark.O blockBoard i ≠ -1000
        ∧ candidateScore Mark.O blockBoard i ≠ 1000)
    ∧ -10 ≤ (minimaxSearch Mark.O blockBoard).1 ∧ (minimaxSearch Mark.O blockBoard).1 ≤ 10
    ∧ (minimaxSearch Mark.O blockBoard).1 ≠ -1000
    ∧ (minimaxSearch Mark.O blockBoard).1 ≠ 1000 :=
  candidate_scores_in_range Mark.O blockBoard ⟨2, rfl⟩

/-- C13: `minimax` returns `10 - depth` when the optimizing symbol has a complete line;
otherwise `depth - 10` when the other mark has one; otherwise `0` when the board is
full.  The opponent symbol of `minimax` is the other of the two marks. -/
theorem minimax_terminal (symbol : Mark) (board : Board) (depth : Int) (isMaximizing : Bool) :
    opponentOf symbol.toChar = symbol.other.toChar
    ∧ (checkWin board symbol.toChar = true →
        minimax symbol board depth isMaximizing = 10 - depth)
    ∧ (checkWin board symbol.toChar = false → checkWin board symbol.other.toChar = true →
        minimax symbol board depth isMaximizing = depth - 10)
    ∧ (checkWin board symbol.toChar = false → checkWin board symbol.other.toChar = false →
        isFull board = true → minimax symbol board depth isMaximizing = 0) := by
  refine ⟨opponentOf_toChar symbol, fun h => ?_, fun h1 h2 => ?_, fun h1 h2 h3 => ?_⟩
  · rw [minimax, if_pos h]
  · rw [minimax, opponentOf_toChar, h1, if_neg Bool.false_ne_true, if_pos h2]
  · rw [minimax, opponentOf_toChar, h1, h2, if_neg Bool.false_ne_true,
      if_neg Bool.false_ne_true, if_pos h3]

/-- C14: `isEmptyCell` is true exactly when the position is in `0..8` and its cell is
blank; for a position out of range the answer is `false` on every board, whatever the
cells hold. -/
theorem isEmptyCell_spec (b : Board) (position : Int) :
    (isEmptyCell b position = true ↔
        0 ≤ position ∧ position ≤ 8 ∧ ∃ i : Fin 9, (i.val : Int) = position ∧ b i = ' ')
    ∧ ((position < 0 ∨ 9 ≤ position) → ∀ b1 : Board, isEmptyCell b1 position = false) := by
  constructor
  · rw [isEmptyCell_iff]
    constructor
    · rintro ⟨i, hi, hb⟩
      exact ⟨by omega, by omega, i, hi, hb⟩
    · rintro ⟨-, -, i, hi, hb⟩
      exact ⟨i, hi, hb⟩
  · intro h b1
    unfold isEmptyCell
    rw [dif_neg (by omega)]

/-- C15: `isFull` is true exactly when none of the nine cells is blank, that is, when
`isEmptyCell` is false at every index `0..8`. -/
theorem isFull_spec (b : Board) :
    (isFull b = true ↔ ∀ i : Fin 9, b i ≠ ' ')
    ∧ (isFull b = true ↔ ∀ i : Nat, i < 9 → isEmptyCell b (i : Int) = false) := by
  refine ⟨isFull_iff b, ?_⟩
  rw [isFull_iff]
  constructor
  · intro h i hi
    cases he : isEmptyCell b (i : Int) with
    | false => rfl
    | true =>
      obtain ⟨hi9, hb⟩ := (isEmptyCell_natCast b i).1 he
      exact absurd hb (h _)
  · intro h i hb
    have := h i.val i.isLt
    rw [(isEmptyCell_natCast b i.val).2 ⟨i.isLt, hb⟩] at this
    cases this

/-! ## The random and the human player -/

theorem makeMove_at_empty (b : Board) (position : Int) (playerSymbol : Char)
    (h : isEmptyCell b position = true) :
    ∃ i : Fin 9, (i.val : Int) = position ∧ b i = ' '
      ∧ (makeMove b position playerSymbol).2 = Function.update b i playerSymbol := by
  obtain ⟨i, hi, hb⟩ := (isEmptyCell_iff b position).1 h
  refine ⟨i, hi, hb, ?_⟩
  rw [← hi, makeMove_of_empty b i playerSymbol hb]

theorem makeRandomMove_some (symbol : Mark) :
    ∀ (n : Nat) (draws : List Nat), draws.length ≤ n →
      ∀ (board board1 : Board) (rest : List Nat),
        makeRandomMove symbol draws board = some (board1, rest) →
        ∃ i : Fin 9, board i = ' ' ∧ board1 = Function.update board i symbol.toChar := by
  intro n
  induction n with
  | zero =>
    intro draws hlen board board1 rest h
    have : draws = [] := List.length_eq_zero.1 (Nat.le_zero.1 hlen)
    subst this
    simp [makeRandomMove] at h
  | succ n ih =>
    intro draws hlen board board1 rest h
    match draws, hlen, h with
    | [], _, h => simp [makeRandomMove] at h
    | [_], _, h => simp [makeRandomMove] at h
    | r :: c :: tl, hlen, h =>
      rw [makeRandomMove] at h
      by_cases he : isEmptyCell board ((r : Int) % 3 * 3 + (c : Int) % 3) = false
      · rw [if_pos he] at h
        exact ih tl (by simp only [List.length_cons] at hlen; omega) board board1 rest h
      · rw [if_neg he] at h
        simp only [Option.some.injEq, Prod.mk.injEq] at h
        obtain ⟨i, -, hb, hm⟩ := makeMove_at_empty board _ symbol.toChar (by simpa using he)
        exact ⟨i, hb, by rw [← h.1, hm]⟩

theorem humanMakeMove_some (symbol : Mark) :
    ∀ (inputs : List (Int × Int)) (board board1 : Board) (rest : List (Int × Int)),
      humanMakeMove symbol inputs board = some (board1, rest) →
      ∃ i : Fin 9, board i = ' ' ∧ board1 = Function.update board i symbol.toChar := by
  intro inputs
  induction inputs with
  | nil => intro board board1 rest h; simp [humanMakeMove] at h
  | cons p tl ih =>
    intro board board1 rest h
    obtain ⟨row, col⟩ := p
    rw [humanMakeMove] at h
    split at h
    · exact ih board board1 rest h
    · rename_i hc
      simp only [Option.some.injEq, Prod.mk.injEq] at h
      have he : isEmptyCell board ((row - 1) * 3 + (col - 1)) = true := by
        cases hv : isEmptyCell board ((row - 1) * 3 + (col - 1)) with
        | true => rfl
        | false => exact absurd (Or.inr (Or.inr hv)) hc
      obtain ⟨i, -, hb, hm⟩ := makeMove_at_empty board _ symbol.toChar he
      exact ⟨i, hb, by rw [← h.1, hm]⟩

/-- C16: whenever `makeRandomMove` returns, the board it leaves is the input board with
the symbol of the player written into one cell that was blank; so on a board with
exactly one blank cell it plays that cell, whatever the draws. -/
theorem makeRandomMove_plays_blank (symbol : Mark) (draws : List Nat) (board board1 : Board)
    (rest : List Nat) (h : makeRandomMove symbol draws board = some (board1, rest)) :
    ∃ i : Fin 9, board i = ' ' ∧ board1 i = symbol.toChar
      ∧ (∀ j : Fin 9, j ≠ i → board1 j = board j)
      ∧ (∀ i0 : Fin 9, (∀ j : Fin 9, board j = ' ' → j = i0) → i = i0) := by
  obtain ⟨i, hb, hm⟩ := makeRandomMove_some symbol draws.length draws le_rfl board board1 rest h
  refine ⟨i, hb, by rw [hm]; simp, fun j hj => by rw [hm]; simp [Function.update_noteq hj],
    fun i0 h0 => h0 i hb⟩

/-- On `_ X O / O X X / X O X` with the draws 7, 4, 5, 3, 0, 9, 1: the rounds (7, 4)
and (5, 3) hit the occupied cells 4 and 6, the round (0, 9) hits the blank cell 0, and
the call returns with O placed there and the draw 1 left over. -/
theorem makeRandomMove_plays_blank_witness :
    makeRandomMove Mark.O [7, 4, 5, 3, 0, 9, 1]
        (boardOf [' ', 'X', 'O', 'O', 'X', 'X', 'X', 'O', 'X'])
      = some (boardOf ['O', 'X', 'O', 'O', 'X', 'X', 'X', 'O', 'X'], [1])
    ∧ ∃ i : Fin 9, boardOf [' ', 'X', 'O', 'O', 'X', 'X', 'X', 'O', 'X'] i = ' '
      ∧ boardOf ['O', 'X', 'O', 'O', 'X', 'X', 'X', 'O', 'X'] i = Mark.O.toChar
      ∧ (∀ j : Fin 9, j ≠ i → boardOf ['O', 'X', 'O', 'O', 'X', 'X', 'X', 'O', 'X'] j
          = boardOf [' ', 'X', 'O', 'O', 'X', 'X', 'X', 'O', 'X'] j)
      ∧ (∀ i0 : Fin 9, (∀ j : Fin 9,
          boardOf [' ', 'X', 'O', 'O', 'X', 'X', 'X', 'O', 'X'] j = ' ' → j = i0) → i = i0) :=
  have h : makeRandomMove Mark.O [7, 4, 5, 3, 0, 9, 1]
        (boardOf [' ', 'X', 'O', 'O', 'X', 'X', 'X', 'O', 'X'])
      = some (boardOf ['O', 'X', 'O', 'O', 'X', 'X', 'X', 'O', 'X'], [1]) := by
    rw [makeRandomMove, if_pos (by decide!), makeRandomMove, if_pos (by decide!),
      makeRandomMove, if_neg (by decide!)]
    refine congrArg some (Prod.ext ?_ rfl)
    funext i
    fin_cases i <;> rfl
  ⟨h, makeRandomMove_plays_blank Mark.O _ _ _ _ h⟩

/-! ## Termination of `minimax` -/

theorem minimaxLoopCalls_lt (symbol : Mark) (depth : Int) (isMaximizing : Bool) :
    ∀ (k i : Nat) (board : Board),
      ∀ c ∈ minimaxLoopCalls symbol depth isMaximizing k i board,
        emptyCount c.1 < emptyCount board := by
  intro k
  induction k with
  | zero => intro i board c hc; simp [minimaxLoopCalls] at hc
  | succ k ih =>
    intro i board c hc
    rw [minimaxLoopCalls] at hc
    by_cases he : isEmptyCell board (i : Int) = true
    · have hdec := emptyCount_makeMove_lt board i (mover symbol isMaximizing)
        (mover_ne_blank _ _) he
      simp only [he, if_true, List.mem_cons] at hc
      rcases hc with rfl | hc
      · exact hdec
      · exact lt_trans (ih _ _ c hc) hdec
    · simp only [he, if_false] at hc
      exact ih _ _ c hc

/-- The value of the loop of `minimax` is the running maximum (or minimum) of the
values of `minimax` at the recursive calls listed by `minimaxLoopCalls`. -/
theorem minimaxLoop_eq_foldl (symbol : Mark) (depth : Int) (isMaximizing : Bool) :
    ∀ (k i : Nat) (board : Board) (bestScore : Int), i + k = 9 →
      minimaxLoop symbol depth isMaximizing i board bestScore
        = (minimaxLoopCalls symbol depth isMaximizing k i board).foldl
            (fun best c =>
              if isMaximizing then max (minimax symbol c.1 c.2.1 c.2.2) best
              else min (minimax symbol c.1 c.2.1 c.2.2) best)
            bestScore := by
  intro k
  induction k with
  | zero =>
    intro i board bestScore hi
    rw [minimaxLoop]
    simp [minimaxLoopCalls, show ¬ i < 9 by omega]
  | succ k ih =>
    intro i board bestScore hi
    rw [minimaxLoop, minimaxLoopCalls]
    have hlt : i < 9 := by omega
    simp only [hlt, if_true]
    by_cases he : isEmptyCell board (i : Int) = true
    · simp only [he, if_true, dite_true, List.foldl_cons]
      exact ih _ _ _ (by omega)
    · simp only [he, if_false, dite_false]
      exact ih _ _ _ (by omega)

/-- C17: `minimax` is a total function (defined by well-founded recursion, without a
counter): each of its recursive calls receives a board with strictly fewer blank
cells than the board of the call that makes it, a board has at most 9 blank cells, the
value of a call is the fold of the values of its recursive calls, and bounding the
nesting of calls by any number above the number of blank cells changes nothing. -/
theorem minimax_terminates (symbol : Mark) (board : Board) (depth : Int)
    (isMaximizing : Bool) :
    (∀ c ∈ minimaxCalls symbol board depth isMaximizing, emptyCount c.1 < emptyCount board)
    ∧ emptyCount board ≤ 9
    ∧ minimax symbol board depth isMaximizing
        = (if checkWin board symbol.toChar then 10 - depth
          else if checkWin board (opponentOf symbol.toChar) then depth - 10
          else if isFull board then 0
          else (minimaxCalls symbol board depth isMaximizing).foldl
            (fun best c =>
              if isMaximizing then max (minimax symbol c.1 c.2.1 c.2.2) best
              else min (minimax symbol c.1 c.2.1 c.2.2) best)
            (if isMaximizing then -1000 else 1000))
    ∧ (∀ fuel : Nat, emptyCount board < fuel →
        minimaxFuel fuel symbol board depth isMaximizing
          = minimax symbol board depth isMaximizing) := by
  refine ⟨?_, emptyCount_le board, ?_, fun fuel h => minimaxFuel_eq symbol fuel board _ _ h⟩
  · intro c hc
    unfold minimaxCalls at hc
    split at hc
    · simp at hc
    · split at hc
      · simp at hc
      · split at hc
        · simp at hc
        · exact minimaxLoopCalls_lt symbol depth isMaximizing 9 0 board c hc
  · rw [minimax]
    unfold minimaxCalls
    split
    · rfl
    · split
      · rfl
      · split
        · rfl
        · exact minimaxLoop_eq_foldl symbol depth isMaximizing 9 0 board _ (by omega)

/-! ## Invariant of the turn loop -/

theorem countOf_update_self (b : Board) (i : Fin 9) (c : Char) (hc : c ≠ ' ')
    (hb : b i = ' ') : countOf c (Function.update b i c) = countOf c b + 1 := by
  unfold countOf
  have hset : Finset.univ.filter (fun j : Fin 9 => Function.update b i c j = c)
      = insert i (Finset.univ.filter (fun j : Fin 9 => b j = c)) := by
    ext j
    by_cases hji : j = i
    · subst hji; simp
    · simp [Function.update_noteq hji, hji]
  rw [hset, Finset.card_insert_of_not_mem (by simp [hb, Ne.symm hc])]

theorem countOf_update_other (b : Board) (i : Fin 9) (c s : Char) (hc : c ≠ ' ')
    (hs : s ≠ c) (hb : b i = ' ') : countOf c (Function.update b i s) = countOf c b := by
  unfold countOf
  congr 1
  ext j
  by_cases hji : j = i
  · subst hji; simp [hs, hb, Ne.symm hc]
  · simp [Function.update_noteq hji]

theorem gameRunning_iff (b : Board) :
    gameRunning b = true ↔
      isFull b = false ∧ checkWin b 'X' = false ∧ checkWin b 'O' = false := by
  simp [gameRunning, and_assoc]

/-- On a board that is not full, a player of any kind writes its symbol into one
blank cell and changes nothing else. -/
theorem playerPolicy_fills (kind : PlayerKind) (symbol : Mark) (b b1 : Board)
    (hfull : isFull b = false) (h : playerPolicy kind symbol b b1) :
    ∃ i : Fin 9, b i = ' ' ∧ b1 = Function.update b i symbol.toChar := by
  cases kind with
  | human =>
    obtain ⟨inputs, rest, h⟩ := h
    exact humanMakeMove_some symbol inputs b b1 rest h
  | random =>
    obtain ⟨draws, rest, h⟩ := h
    exact makeRandomMove_some symbol draws.length draws le_rfl b b1 rest h
  | minimax =>
    have hb1 : b1 = makeMinimaxMove symbol b := h
    obtain ⟨i0, hi0⟩ := (isFull_eq_false_iff b).1 hfull
    rcases minimaxSearch_spec symbol b with ⟨-, hall⟩ | ⟨j, hj, hje, hr, -, -⟩
    · have h1 := hall i0.val i0.isLt
      rw [(isEmptyCell_natCast b i0.val).2 ⟨i0.isLt, hi0⟩] at h1
      cases h1
    · obtain ⟨hj9, hbj⟩ := (isEmptyCell_natCast b j).1 hje
      refine ⟨⟨j, hj9⟩, hbj, ?_⟩
      rw [hb1, makeMinimaxMove_of_search symbol b _ j hr, makeMove_natCast b j _ hj9 hbj]

/-- C20: in every state at the head of the turn loop of `Game::run`, for players of any
kinds (player 1 with X, player 2 with O): there are as many X as O when player 1 is to
move and one more X than O when player 2 is to move; and the state is the start state,
or it comes from a state of the loop whose board was not full and had no complete line
of X or O, by the mover of that state writing its symbol into one blank cell; and any
turn executed from the state writes the symbol of the mover into one blank cell and
changes nothing else. -/
theorem gameRun_invariant (kind1 kind2 : PlayerKind) (b1 : Board) (currentPlayer1 : Nat)
    (h : GameReach (playerPolicy kind1 Mark.X) (playerPolicy kind2 Mark.O) b1 currentPlayer1) :
    ((currentPlayer1 = 0 ∧ countOf 'X' b1 = countOf 'O' b1)
      ∨ (currentPlayer1 = 1 ∧ countOf 'X' b1 = countOf 'O' b1 + 1))
    ∧ ((b1 = emptyBoard ∧ currentPlayer1 = 0)
      ∨ ∃ (b : Board) (currentPlayer : Nat),
          GameReach (playerPolicy kind1 Mark.X) (playerPolicy kind2 Mark.O) b currentPlayer
          ∧ currentPlayer1 = 1 - currentPlayer
          ∧ isFull b = false ∧ checkWin b 'X' = false ∧ checkWin b 'O' = false
          ∧ ∃ i : Fin 9, b i = ' '
              ∧ b1 = Function.update b i (if currentPlayer = 0 then 'X' else 'O'))
    ∧ (∀ b2 : Board, gameRunning b1 = true →
        (if currentPlayer1 = 0 then playerPolicy kind1 Mark.X
          else playerPolicy kind2 Mark.O) b1 b2 →
        ∃ i : Fin 9, b1 i = ' '
          ∧ b2 = Function.update b1 i (if currentPlayer1 = 0 then 'X' else 'O')) := by
  suffices main : ((currentPlayer1 = 0 ∧ countOf 'X' b1 = countOf 'O' b1)
      ∨ (currentPlayer1 = 1 ∧ countOf 'X' b1 = countOf 'O' b1 + 1))
    ∧ ((b1 = emptyBoard ∧ currentPlayer1 = 0)
      ∨ ∃ (b : Board) (currentPlayer : Nat),
          GameReach (playerPolicy kind1 Mark.X) (playerPolicy kind2 Mark.O) b currentPlayer
          ∧ currentPlayer1 = 1 - currentPlayer
          ∧ isFull b = false ∧ checkWin b 'X' = false ∧ checkWin b 'O' = false
          ∧ ∃ i : Fin 9, b i = ' '
              ∧ b1 = Function.update b i (if currentPlayer = 0 then 'X' else 'O')) by
    refine ⟨main.1, main.2, fun b2 hrun hp => ?_⟩
    have hfull := ((gameRunning_iff b1).1 hrun).1
    rcases main.1 with ⟨hc, -⟩ | ⟨hc, -⟩
    · subst hc
      exact playerPolicy_fills kind1 Mark.X b1 b2 hfull hp
    · subst hc
      exact playerPolicy_fills kind2 Mark.O b1 b2 hfull hp
  induction h with
  | start =>
    refine ⟨Or.inl ⟨rfl, ?_⟩, Or.inl ⟨rfl, rfl⟩⟩
    simp [countOf, emptyBoard]
  | @turn b b2 cur hreach hrun hp ih =>
    obtain ⟨hfull, hX, hO⟩ := (gameRunning_iff b).1 hrun
    rcases ih.1 with ⟨hc, hcount⟩ | ⟨hc, hcount⟩
    · subst hc
      obtain ⟨i, hb, hb2⟩ := playerPolicy_fills kind1 Mark.X b b2 hfull hp
      refine ⟨Or.inr ⟨rfl, ?_⟩, Or.inr ⟨b, 0, hreach, rfl, hfull, hX, hO, i, hb, hb2⟩⟩
      rw [hb2]
      show countOf 'X' (Function.update b i 'X') = countOf 'O' (Function.update b i 'X') + 1
      rw [countOf_update_self b i 'X' (by decide) hb,
        countOf_update_other b i 'O' 'X' (by decide) (by decide) hb, hcount]
    · subst hc
      obtain ⟨i, hb, hb2⟩ := playerPolicy_fills kind2 Mark.O b b2 hfull hp
      refine ⟨Or.inl ⟨rfl, ?_⟩, Or.inr ⟨b, 1, hreach, rfl, hfull, hX, hO, i, hb, hb2⟩⟩
      rw [hb2]
      show countOf 'X' (Function.update b i 'O') = countOf 'O' (Function.update b i 'O')
      rw [countOf_update_self b i 'O' (by decide) hb,
        countOf_update_other b i 'X' 'O' (by decide) (by decide) hb, hcount]

/-- A human playing X against minimax playing O: the human enters row 1, column 1 on
the empty board; the state reached has X in cell 0 and player 2 to move. -/
theorem gameRun_invariant_witness :
    GameReach (playerPolicy PlayerKind.human Mark.X) (playerPolicy PlayerKind.minimax Mark.O)
        cornerBoard 1
    ∧ ((1 = 0 ∧ countOf 'X' cornerBoard = countOf 'O' cornerBoard)
        ∨ (1 = 1 ∧ countOf 'X' cornerBoard = countOf 'O' cornerBoard + 1))
    ∧ ((cornerBoard = emptyBoard ∧ 1 = 0)
      ∨ ∃ (b : Board) (currentPlayer : Nat),
          GameReach (playerPolicy PlayerKind.human Mark.X)
            (playerPolicy PlayerKind.minimax Mark.O) b currentPlayer
          ∧ 1 = 1 - currentPlayer
          ∧ isFull b = false ∧ checkWin b 'X' = false ∧ checkWin b 'O' = false
          ∧ ∃ i : Fin 9, b i = ' '
              ∧ cornerBoard = Function.update b i (if currentPlayer = 0 then 'X' else 'O'))
    ∧ (∀ b2 : Board, gameRunning cornerBoard = true →
        (if 1 = 0 then playerPolicy PlayerKind.human Mark.X
          else playerPolicy PlayerKind.minimax Mark.O) cornerBoard b2 →
        ∃ i : Fin 9, cornerBoard i = ' '
          ∧ b2 = Function.update cornerBoard i (if 1 = 0 then 'X' else 'O')) :=
  have hmove : humanMakeMove Mark.X [(1, 1)] emptyBoard = some (cornerBoard, []) := by
    rw [humanMakeMove, if_neg (by decide!)]
    refine congrArg some (Prod.ext ?_ rfl)
    funext i
    fin_cases i <;> rfl
  have h : GameReach (playerPolicy PlayerKind.human Mark.X)
      (playerPolicy PlayerKind.minimax Mark.O) cornerBoard 1 :=
    gameReach_turn1 GameReach.start (by decide!) ⟨[(1, 1)], [], hmove⟩
  ⟨h, gameRun_invariant PlayerKind.human PlayerKind.minimax cornerBoard 1 h⟩

/-! ## Scores and the depth -/

theorem minimaxLoop_between (symbol : Mark) (depth : Int) (isMaximizing : Bool)
    (lo hi : Int) (hlo : -1000 ≤ lo) (hhi : hi ≤ 1000) :
    ∀ (k i : Nat) (board : Board) (bestScore : Int), i + k = 9 →
      (∀ b, emptyCount b < emptyCount board →
        lo ≤ minimax symbol b (depth + 1) (!isMaximizing)
          ∧ minimax symbol b (depth + 1) (!isMaximizing) ≤ hi) →
      ((lo ≤ bestScore ∧ bestScore ≤ hi)
        ∨ (bestScore = (if isMaximizing then -1000 else 1000)
            ∧ ∃ j : Fin 9, i ≤ j.val ∧ board j = ' ')) →
      lo ≤ minimaxLoop symbol depth isMaximizing i board bestScore
        ∧ minimaxLoop symbol depth isMaximizing i board bestScore ≤ hi := by
  intro k
  induction k with
  | zero =>
    intro i board bestScore hi _ hbest
    rw [minimaxLoop]
    simp only [show ¬ i < 9 by omega, if_false]
    rcases hbest with h | ⟨-, j, hj, -⟩
    · exact h
    · have := j.isLt; omega
  | succ k ih =>
    intro i board bestScore hi hcall hbest
    rw [minimaxLoop]
    have hlt : i < 9 := by omega
    simp only [hlt, if_true]
    by_cases he : isEmptyCell board (i : Int) = true
    · have hdec := emptyCount_makeMove_lt board i (mover symbol isMaximizing)
        (mover_ne_blank _ _) he
      simp only [he, dite_true]
      have hs := hcall _ hdec
      refine ih _ _ _ (by omega) (fun b hb => hcall b (lt_trans hb hdec)) (Or.inl ?_)
      cases isMaximizing with
      | true =>
        simp only [if_true] at hbest ⊢
        rcases hbest with h | ⟨h, -⟩
        · exact ⟨le_trans hs.1 (le_max_left _ _), max_le hs.2 h.2⟩
        · rw [h, max_eq_left (by omega)]; exact hs
      | false =>
        simp only [Bool.false_eq_true, if_false] at hbest ⊢
        rcases hbest with h | ⟨h, -⟩
        · exact ⟨le_min hs.1 h.1, le_trans (min_le_left _ _) hs.2⟩
        · rw [h, min_eq_left (by omega)]; exact hs
    · simp only [he, dite_false]
      refine ih _ _ _ (by omega) hcall ?_
      rcases hbest with h | ⟨h, j, hj, hbj⟩
      · exact Or.inl h
      · refine Or.inr ⟨h, j, ?_, hbj⟩
        rcases Nat.eq_or_lt_of_le hj with heq | hlt2
        · exact absurd ((isEmptyCell_natCast board i).2 ⟨hlt, by
            have : (⟨i, hlt⟩ : Fin 9) = j := Fin.ext heq
            rw [this]; exact hbj⟩) he
        · exact hlt2

/-- At depth `d ≥ 0` with `d` plus the number of blank cells at most 9, the score of
`minimax` lies between `d - 10` and `10 - d`. -/
theorem minimax_between (symbol : Mark) :
    ∀ (n : Nat) (board : Board), emptyCount board < n →
      ∀ (depth : Int) (isMaximizing : Bool), 0 ≤ depth → depth + emptyCount board ≤ 9 →
        depth - 10 ≤ minimax symbol board depth isMaximizing
          ∧ minimax symbol board depth isMaximizing ≤ 10 - depth := by
  intro n
  induction n with
  | zero => intro board h; omega
  | succ n ih =>
    intro board hn depth isMaximizing hd hsum
    rw [minimax]
    split
    · constructor <;> omega
    · split
      · constructor <;> omega
      · split
        · constructor <;> omega
        · rename_i hfull
          obtain ⟨j, hj⟩ := (isFull_eq_false_iff board).1 (by simpa using hfull)
          refine minimaxLoop_between symbol depth isMaximizing (depth - 10) (10 - depth)
            (by omega) (by omega) 9 0 board _ (by omega) (fun b hb => ?_)
            (Or.inr ⟨rfl, j, Nat.zero_le _, hj⟩)
          have := ih b (by omega) (depth + 1) (!isMaximizing) (by omega) (by omega)
          constructor <;> omega

/-- When the optimizing symbol has no complete line the score is at most `9 - d`. -/
theorem minimax_le_of_not_win (symbol : Mark) (board : Board) (depth : Int)
    (isMaximizing : Bool) (hd : 0 ≤ depth) (hsum : depth + emptyCount board ≤ 9)
    (hwin : checkWin board symbol.toChar = false) :
    minimax symbol board depth isMaximizing ≤ 9 - depth := by
  rw [minimax, hwin, if_neg Bool.false_ne_true]
  split
  · omega
  · split
    · omega
    · rename_i hfull
      obtain ⟨j, hj⟩ := (isFull_eq_false_iff board).1 (by simpa using hfull)
      refine (minimaxLoop_between symbol depth isMaximizing (depth - 10) (9 - depth)
        (by omega) (by omega) 9 0 board _ (by omega) (fun b hb => ?_)
        (Or.inr ⟨rfl, j, Nat.zero_le _, hj⟩)).2
      have := minimax_between symbol (emptyCount b + 1) b (Nat.lt_succ_self _) (depth + 1)
        (!isMaximizing) (by omega) (by omega)
      constructor <;> omega

theorem candidateScore_of_win (symbol : Mark) (board : Board) (i : Nat)
    (h : checkWin (makeMove board (i : Int) symbol.toChar).2 symbol.toChar = true) :
    candidateScore symbol board i = 10 := by
  rw [candidateScore, minimax, if_pos h]; rfl

theorem candidateScore_lt_of_not_win (symbol : Mark) (board : Board) (i : Nat)
    (he : isEmptyCell board (i : Int) = true)
    (h : checkWin (makeMove board (i : Int) symbol.toChar).2 symbol.toChar = false) :
    candidateScore symbol board i < 10 := by
  have hdec := emptyCount_makeMove_lt board i symbol.toChar symbol.toChar_ne_blank he
  have hle := emptyCount_le board
  have := minimax_le_of_not_win symbol _ 0 false le_rfl (by omega) h
  unfold candidateScore
  omega

/-- C18: if some blank cell completes a line for the symbol, `makeMinimaxMove` plays the
lowest-index such cell with best score 10, and every blank cell that does not complete
a line scores less than 10. -/
theorem makeMinimaxMove_takes_win (symbol : Mark) (board : Board)
    (h : ∃ i : Nat, isEmptyCell board (i : Int) = true
      ∧ checkWin (makeMove board (i : Int) symbol.toChar).2 symbol.toChar = true) :
    ∃ j : Nat, j < 9 ∧ isEmptyCell board (j : Int) = true
      ∧ checkWin (makeMove board (j : Int) symbol.toChar).2 symbol.toChar = true
      ∧ (∀ j1 : Nat, j1 < j → isEmptyCell board (j1 : Int) = true →
          checkWin (makeMove board (j1 : Int) symbol.toChar).2 symbol.toChar = false)
      ∧ minimaxSearch symbol board = (10, (j : Int))
      ∧ makeMinimaxMove symbol board = (makeMove board (j : Int) symbol.toChar).2
      ∧ (∀ i : Nat, isEmptyCell board (i : Int) = true →
          checkWin (makeMove board (i : Int) symbol.toChar).2 symbol.toChar = false →
          candidateScore symbol board i < 10) := by
  obtain ⟨i0, hi0e, hi0w⟩ := h
  have hi09 : i0 < 9 := ((isEmptyCell_natCast board i0).1 hi0e).1
  rcases minimaxSearch_spec symbol board with ⟨-, hall⟩ | ⟨j, hj, hje, hr, hmax, hfirst⟩
  · rw [hall i0 hi09] at hi0e; cases hi0e
  · have h10 : candidateScore symbol board j = 10 := by
      have h1 := hmax i0 hi09 hi0e
      rw [candidateScore_of_win symbol board i0 hi0w] at h1
      have h2 := (candidateScore_bounds symbol board j hje).2
      omega
    have hwin : ∀ i : Nat, isEmptyCell board (i : Int) = true →
        candidateScore symbol board i = 10 →
        checkWin (makeMove board (i : Int) symbol.toChar).2 symbol.toChar = true := by
      intro i hie hs
      cases hw : checkWin (makeMove board (i : Int) symbol.toChar).2 symbol.toChar with
      | true => rfl
      | false =>
        have := candidateScore_lt_of_not_win symbol board i hie hw
        omega
    refine ⟨j, hj, hje, hwin j hje h10, fun j1 hj1 hj1e => ?_, by rw [hr, h10],
      makeMinimaxMove_of_search symbol board _ j hr,
      fun i hie hw => candidateScore_lt_of_not_win symbol board i hie hw⟩
    cases hw : checkWin (makeMove board (j1 : Int) symbol.toChar).2 symbol.toChar with
    | false => rfl
    | true =>
      have h1 := hfirst j1 hj1 hj1e
      rw [candidateScore_of_win symbol board j1 hw, h10] at h1
      exact absurd h1 (lt_irrefl _)

/-- On `X X _ / O O _ / _ _ _` with O to play, cell 5 completes the row 3, 4, 5. -/
theorem makeMinimaxMove_takes_win_witness :
    ∃ j : Nat, j < 9 ∧ isEmptyCell blockBoard (j : Int) = true
      ∧ checkWin (makeMove blockBoard (j : Int) Mark.O.toChar).2 Mark.O.toChar = true
      ∧ (∀ j1 : Nat, j1 < j → isEmptyCell blockBoard (j1 : Int) = true →
          checkWin (makeMove blockBoard (j1 : Int) Mark.O.toChar).2 Mark.O.toChar = false)
      ∧ minimaxSearch Mark.O blockBoard = (10, (j : Int))
      ∧ makeMinimaxMove Mark.O blockBoard = (makeMove blockBoard (j : Int) Mark.O.toChar).2
      ∧ (∀ i : Nat, isEmptyCell blockBoard (i : Int) = true →
          checkWin (makeMove blockBoard (i : Int) Mark.O.toChar).2 Mark.O.toChar = false →
          candidateScore Mark.O blockBoard i < 10) :=
  makeMinimaxMove_takes_win Mark.O blockBoard ⟨5, by decide!, by decide!⟩

/-! ## The opening -/

/-- Three or fewer cells that contain no complete line leave some line untouched. -/
theorem untouched_line_flags :
    ∀ a0 a1 a2 a3 a4 a5 a6 a7 a8 : Bool,
      a0.toNat + a1.toNat + a2.toNat + a3.toNat + a4.toNat + a5.toNat + a6.toNat
        + a7.toNat + a8.toNat ≤ 3 →
      ((a0 && a1 && a2) || (a3 && a4 && a5) || (a6 && a7 && a8) || (a0 && a3 && a6)
        || (a1 && a4 && a7) || (a2 && a5 && a8) || (a0 && a4 && a8) || (a2 && a4 && a6))
        = false →
      ((!a0 && !a1 && !a2) || (!a3 && !a4 && !a5) || (!a6 && !a7 && !a8)
        || (!a0 && !a3 && !a6) || (!a1 && !a4 && !a7) || (!a2 && !a5 && !a8)
        || (!a0 && !a4 && !a8) || (!a2 && !a4 && !a6)) = true := by
  decide

theorem countOf_eq_sum (c : Char) (t : Board) :
    countOf c t = (decide (t 0 = c)).toNat + (decide (t 1 = c)).toNat
      + (decide (t 2 = c)).toNat + (decide (t 3 = c)).toNat + (decide (t 4 = c)).toNat
      + (decide (t 5 = c)).toNat + (decide (t 6 = c)).toNat + (decide (t 7 = c)).toNat
      + (decide (t 8 = c)).toNat := by
  unfold countOf
  rw [Finset.card_filter]
  simp only [Fin.sum_univ_succ, Fin.sum_univ_zero]
  have e : ∀ i : Fin 9, (if t i = c then 1 else 0) = (decide (t i = c)).toNat := by
    intro i
    by_cases h : t i = c <;> simp [h]
  show (if t 0 = c then 1 else 0) + ((if t 1 = c then 1 else 0) + ((if t 2 = c then 1 else 0)
    + ((if t 3 = c then 1 else 0) + ((if t 4 = c then 1 else 0) + ((if t 5 = c then 1 else 0)
    + ((if t 6 = c then 1 else 0) + ((if t 7 = c then 1 else 0)
    + ((if t 8 = c then 1 else 0) + 0)))))))) = _
  simp only [e]
  omega


/-- A board with at most three cells of a character and no complete line of it has a
line none of whose cells holds the character. -/
theorem exists_untouched_line (c : Char) (t : Board) (hcount : countOf c t ≤ 3)
    (hwin : checkWin t c = false) :
    ∃ l ∈ winLines, t l.1 ≠ c ∧ t l.2.1 ≠ c ∧ t l.2.2 ≠ c := by
  have hno : ¬ ∃ l ∈ winLines, t l.1 = c ∧ t l.2.1 = c ∧ t l.2.2 = c := by
    rw [← checkWin_iff_line, hwin]; exact Bool.false_ne_true
  rw [countOf_eq_sum] at hcount
  have key := untouched_line_flags (decide (t 0 = c)) (decide (t 1 = c)) (decide (t 2 = c))
    (decide (t 3 = c)) (decide (t 4 = c)) (decide (t 5 = c)) (decide (t 6 = c))
    (decide (t 7 = c)) (decide (t 8 = c)) hcount (by
      rw [Bool.eq_false_iff]
      intro h
      apply hno
      simp only [winLines, Bool.or_eq_true, Bool.and_eq_true, decide_eq_true_eq, List.mem_cons,
        List.mem_singleton, exists_eq_or_imp, exists_eq_left, List.not_mem_nil, false_and,
        exists_false, or_false, and_assoc, or_assoc] at h ⊢
      exact h)
  simp only [winLines, Bool.or_eq_true, Bool.and_eq_true, Bool.not_eq_true', decide_eq_false_iff_not,
    List.mem_cons, List.mem_singleton, exists_eq_or_imp, exists_eq_left, List.not_mem_nil,
    false_and, exists_false, or_false, and_assoc, or_assoc, ne_eq] at key ⊢
  exact key

theorem Mark.other_toChar_ne (M : Mark) : M.other.toChar ≠ M.toChar := by
  cases M <;> decide

theorem overMarks_cell (M : Mark) (t : Board) (h : overMarks t) (i : Fin 9) :
    t i = ' ' ∨ t i = M.toChar ∨ t i = M.other.toChar := by
  rcases h i with h1 | h1 | h1 <;> cases M <;> simp [Mark.toChar, Mark.other, h1]

theorem overMarks_update (M : Mark) (t : Board) (h : overMarks t) (i : Fin 9) :
    overMarks (Function.update t i M.toChar) := by
  intro j
  by_cases hji : j = i
  · subst hji
    cases M <;> simp [Mark.toChar]
  · rw [Function.update_noteq hji]; exact h j

theorem checkWin_congr (t t1 : Board) (c : Char) (h : ∀ i : Fin 9, t1 i = c ↔ t i = c) :
    checkWin t1 c = checkWin t c := by
  rw [Bool.eq_iff_iff, checkWin_iff_line, checkWin_iff_line]
  simp only [h]

/-- Writing a character other than `c` into a blank cell changes no line of `c`. -/
theorem checkWin_update_other (t : Board) (i : Fin 9) (c s : Char) (hc : c ≠ ' ') (hs : s ≠ c)
    (hb : t i = ' ') : checkWin (Function.update t i s) c = checkWin t c := by
  apply checkWin_congr
  intro j
  by_cases hji : j = i
  · subst hji; simp [hs, hb, Ne.symm hc]
  · rw [Function.update_noteq hji]

/-- On a board over blank, X and O without a complete line of the opponent of `M`, a
line that `M` does not touch has a blank cell. -/
theorem blank_on_untouched_line (M : Mark) (t : Board) (l : Fin 9 × Fin 9 × Fin 9)
    (hl : l ∈ winLines) (hwf : overMarks t) (hO : checkWin t M.other.toChar = false)
    (h1 : t l.1 ≠ M.toChar) (h2 : t l.2.1 ≠ M.toChar) (h3 : t l.2.2 ≠ M.toChar) :
    ∃ i : Fin 9, t i = ' ' := by
  have hno : ¬ ∃ l1 ∈ winLines, t l1.1 = M.other.toChar ∧ t l1.2.1 = M.other.toChar
      ∧ t l1.2.2 = M.other.toChar := by
    rw [← checkWin_iff_line, hO]; exact Bool.false_ne_true
  have hcell : ∀ i : Fin 9, t i ≠ M.toChar → t i ≠ M.other.toChar → ∃ i1 : Fin 9, t i1 = ' ' := by
    intro i hi1 hi2
    rcases overMarks_cell M t hwf i with h | h | h
    · exact ⟨i, h⟩
    · exact absurd h hi1
    · exact absurd h hi2
  by_cases c1 : t l.1 = M.other.toChar
  · by_cases c2 : t l.2.1 = M.other.toChar
    · by_cases c3 : t l.2.2 = M.other.toChar
      · exact absurd ⟨l, hl, c1, c2, c3⟩ hno
      · exact hcell _ h3 c3
    · exact hcell _ h2 c2
  · exact hcell _ h1 c1

/-- The minimizing loop of `minimax` at depth 0, on a board without a line of the
symbol `M` and with a line that `M` does not touch: the marks of the opponent pile up
on the local board until they complete a line, which scores `-9`, and no score at
depth 1 is lower. -/
theorem minimaxLoop_opening (M : Mark) (l : Fin 9 × Fin 9 × Fin 9) (hl : l ∈ winLines) :
    ∀ (k j : Nat) (t : Board) (bestScore : Int), j + k = 9 → overMarks t →
      checkWin t M.toChar = false →
      (∀ i : Fin 9, i.val < j → t i ≠ ' ') →
      t l.1 ≠ M.toChar → t l.2.1 ≠ M.toChar → t l.2.2 ≠ M.toChar →
      -9 ≤ bestScore →
      (bestScore = -9 ∨ ∃ i : Fin 9, j ≤ i.val ∧ t i = ' ') →
      minimaxLoop M 0 false j t bestScore = -9 := by
  intro k
  induction k with
  | zero =>
    intro j t bestScore hj _ _ _ _ _ _ _ hbest
    rw [minimaxLoop]
    simp only [show ¬ j < 9 by omega, if_false]
    rcases hbest with h | ⟨i, hi, -⟩
    · exact h
    · have := i.isLt; omega
  | succ k ih =>
    intro j t bestScore hj hwf hM hfilled h1 h2 h3 hlow hbest
    have hj9 : j < 9 := by omega
    rw [minimaxLoop]
    simp only [hj9, if_true]
    by_cases he : isEmptyCell t (j : Int) = true
    · obtain ⟨_, hb⟩ := (isEmptyCell_natCast t j).1 he
      have hdec := emptyCount_makeMove_lt t j (mover M false) (mover_ne_blank _ _) he
      have hle := emptyCount_le t
      simp only [he, dite_true, Bool.false_eq_true, if_false, Bool.not_false]
      have hmv : (makeMove t (j : Int) (mover M false)).2
          = Function.update t ⟨j, hj9⟩ M.other.toChar := by
        rw [mover_eq_moverMark, makeMove_natCast t j _ hj9 hb]; rfl
      rw [hmv] at hdec ⊢
      have hM1 : checkWin (Function.update t ⟨j, hj9⟩ M.other.toChar) M.toChar = false := by
        rw [checkWin_update_other t _ _ _ M.toChar_ne_blank M.other_toChar_ne hb]; exact hM
      have hupd : ∀ i : Fin 9, t i ≠ M.toChar →
          Function.update t ⟨j, hj9⟩ M.other.toChar i ≠ M.toChar := by
        intro i hi
        by_cases hij : i = ⟨j, hj9⟩
        · subst hij; simpa using M.other_toChar_ne
        · rw [Function.update_noteq hij]; exact hi
      have hfilled1 : ∀ i : Fin 9, i.val < j + 1 →
          Function.update t ⟨j, hj9⟩ M.other.toChar i ≠ ' ' := by
        intro i hi
        by_cases hij : i = ⟨j, hj9⟩
        · subst hij; simpa using M.other.toChar_ne_blank
        · rw [Function.update_noteq hij]
          exact hfilled i (by
            have : i.val ≠ j := fun h => hij (Fin.ext h)
            omega)
      have hscore := (minimax_between M (emptyCount _ + 1)
        (Function.update t ⟨j, hj9⟩ M.other.toChar) (Nat.lt_succ_self _) (0 + 1) true
        (by omega) (by omega)).1
      refine ih (j + 1) _ _ (by omega) (overMarks_update M.other t hwf _) hM1 hfilled1
        (hupd _ h1) (hupd _ h2) (hupd _ h3) (le_min (by omega) hlow) ?_
      cases hO : checkWin (Function.update t ⟨j, hj9⟩ M.other.toChar) M.other.toChar with
      | true =>
        left
        have hval : minimax M (Function.update t ⟨j, hj9⟩ M.other.toChar) (0 + 1) true = -9 := by
          rw [minimax, hM1, if_neg Bool.false_ne_true, opponentOf_toChar, if_pos hO]; rfl
        rw [hval]
        exact min_eq_left hlow
      | false =>
        right
        obtain ⟨i, hi⟩ := blank_on_untouched_line M _ l hl (overMarks_update M.other t hwf _) hO
          (hupd _ h1) (hupd _ h2) (hupd _ h3)
        refine ⟨i, ?_, hi⟩
        by_contra hlt
        exact hfilled1 i (by omega) hi
    · simp only [he, dite_false]
      refine ih (j + 1) t bestScore (by omega) hwf hM ?_ h1 h2 h3 hlow ?_
      · intro i hi hb
        rcases Nat.lt_succ_iff_lt_or_eq.1 hi with h | h
        · exact hfilled i h hb
        · exact he ((isEmptyCell_natCast t j).2 ⟨hj9, by
            have : (⟨j, hj9⟩ : Fin 9) = i := Fin.ext h.symm
            rw [this]; exact hb⟩)
      · rcases hbest with h | ⟨i, hi, hb⟩
        · exact Or.inl h
        · refine Or.inr ⟨i, ?_, hb⟩
          rcases Nat.eq_or_lt_of_le hi with heq | hlt
          · exact absurd ((isEmptyCell_natCast t j).2 ⟨hj9, by
              have : (⟨j, hj9⟩ : Fin 9) = i := Fin.ext heq
              rw [this]; exact hb⟩) he
          · exact hlt

/-- The score of a candidate in the opening is `-9`. -/
theorem candidateScore_opening (M : Mark) (b : Board) (hwf : overMarks b)
    (hopp : checkWin b M.other.toChar = false) (hM : countOf M.toChar b ≤ 2) (i : Nat)
    (he : isEmptyCell b (i : Int) = true)
    (hno : checkWin (makeMove b (i : Int) M.toChar).2 M.toChar = false) :
    candidateScore M b i = -9 := by
  obtain ⟨hi9, hb⟩ := (isEmptyCell_natCast b i).1 he
  unfold candidateScore
  rw [makeMove_natCast b i _ hi9 hb] at hno ⊢
  have hcount : countOf M.toChar (Function.update b ⟨i, hi9⟩ M.toChar) ≤ 3 := by
    rw [countOf_update_self b _ _ M.toChar_ne_blank hb]; omega
  obtain ⟨l, hl, h1, h2, h3⟩ := exists_untouched_line _ _ hcount hno
  have hwf1 := overMarks_update M b hwf ⟨i, hi9⟩
  have hopp1 : checkWin (Function.update b ⟨i, hi9⟩ M.toChar) M.other.toChar = false := by
    rw [checkWin_update_other b _ _ _ M.other.toChar_ne_blank
      (Ne.symm M.other_toChar_ne) hb]
    exact hopp
  obtain ⟨i1, hi1⟩ := blank_on_untouched_line M _ l hl hwf1 hopp1 h1 h2 h3
  have hfull : isFull (Function.update b ⟨i, hi9⟩ M.toChar) = false :=
    (isFull_eq_false_iff _).2 ⟨i1, hi1⟩
  rw [minimax, hno, if_neg Bool.false_ne_true, opponentOf_toChar, hopp1,
    if_neg Bool.false_ne_true, hfull, if_neg Bool.false_ne_true]
  exact minimaxLoop_opening M l hl 9 0 _ _ rfl hwf1 hno
    (fun i2 h => absurd h (Nat.not_lt_zero _)) h1 h2 h3 (by decide)
    (Or.inr ⟨i1, Nat.zero_le _, hi1⟩)

/-- C19: on a board over blank, X and O with no complete line of X or O, with a blank
cell, with at most two cells of the symbol `M`, and on which no blank cell completes a
line for `M`: every candidate first move scores `-9`, and `makeMinimaxMove` writes `M`
into the lowest-index blank cell. -/
theorem minimaxSearch_opening (M : Mark) (b : Board) (hwf : overMarks b)
    (hX : checkWin b 'X' = false) (hO : checkWin b 'O' = false)
    (hE : ∃ i : Fin 9, b i = ' ') (hM : countOf M.toChar b ≤ 2)
    (hno : ∀ i : Nat, isEmptyCell b (i : Int) = true →
      checkWin (makeMove b (i : Int) M.toChar).2 M.toChar = false) :
    (∀ i : Nat, isEmptyCell b (i : Int) = true → candidateScore M b i = -9)
    ∧ ∃ j : Fin 9, b j = ' ' ∧ (∀ j1 : Fin 9, b j1 = ' ' → j ≤ j1)
        ∧ minimaxSearch M b = (-9, (j.val : Int))
        ∧ makeMinimaxMove M b = Function.update b j M.toChar := by
  have hopp : checkWin b M.other.toChar = false := by
    cases M
    · exact hO
    · exact hX
  have hall : ∀ i : Nat, isEmptyCell b (i : Int) = true → candidateScore M b i = -9 :=
    fun i he => candidateScore_opening M b hwf hopp hM i he (hno i he)
  refine ⟨hall, ?_⟩
  obtain ⟨i0, hi0⟩ := hE
  rcases minimaxSearch_spec M b with ⟨-, hnone⟩ | ⟨j, hj, hje, hr, -, hfirst⟩
  · have h1 := hnone i0.val i0.isLt
    rw [(isEmptyCell_natCast b i0.val).2 ⟨i0.isLt, hi0⟩] at h1
    cases h1
  · obtain ⟨hj9, hbj⟩ := (isEmptyCell_natCast b j).1 hje
    refine ⟨⟨j, hj9⟩, hbj, fun j1 hj1 => ?_, by rw [hr, hall j hje], ?_⟩
    · by_contra hlt
      have hj1e := (isEmptyCell_natCast b j1.val).2 ⟨j1.isLt, hj1⟩
      have := hfirst j1.val (by
        have : ¬ j ≤ j1.val := fun h => hlt (Fin.mk_le_of_le_val h)
        omega) hj1e
      rw [hall _ hj1e, hall j hje] at this
      exact absurd this (lt_irrefl _)
    · rw [makeMinimaxMove_of_search M b _ j hr, makeMove_natCast b j _ hj9 hbj]

/-- The empty board with X to play: every candidate scores `-9` and X goes to cell 0. -/
theorem minimaxSearch_opening_witness :
    (∀ i : Nat, isEmptyCell emptyBoard (i : Int) = true →
        candidateScore Mark.X emptyBoard i = -9)
    ∧ ∃ j : Fin 9, emptyBoard j = ' ' ∧ (∀ j1 : Fin 9, emptyBoard j1 = ' ' → j ≤ j1)
        ∧ minimaxSearch Mark.X emptyBoard = (-9, (j.val : Int))
        ∧ makeMinimaxMove Mark.X emptyBoard = Function.update emptyBoard j Mark.X.toChar :=
  minimaxSearch_opening Mark.X emptyBoard (fun _ => Or.inl rfl) (by decide!) (by decide!)
    ⟨0, rfl⟩ (by simp [countOf, emptyBoard, Mark.toChar]) (by
      intro i he
      obtain ⟨hi9, -⟩ := (isEmptyCell_natCast emptyBoard i).1 he
      interval_cases i <;> decide!)

/-! ## The match of two minimax players -/

end TicTacToe
